import Mathlib

/-!
The program compilercover: a shallow embedding of `main.go`.

The program walks `cmd/compile`, decides file by file whether to run
`go tool cover` on it, and accumulates the text of a generated driver
`cover.go`.  The driver holds a registry of coverage counters and an
exit-time report writer.  Both halves are embedded here:

* the generator (`visit`, `Walk`, `mainWalk`) as explicit state passing over
  `State`, with the external tool and the file system as an environment `Env`;
* the generated runtime (`coverRegisterFile`, `coverageReport`) over
  `Registry`.

Go strings are modelled as lists of characters.  Every needle the program
searches for is ASCII, so searching characters and searching bytes cut a
well-formed UTF-8 string at the same place.

The counter `n` is a `Nat`: every increment of `n` appends more than sixty
bytes to `initText`, so the address space is exhausted long before a machine
`int` could wrap.
-/

namespace CompilerCover

/-- A Go `string`. -/
abbrev GoString := List Char

/-! ## Library functions used by the program (Go standard library, Unix) -/

namespace strings

/-- Go `strings.HasPrefix`: `len(s) >= len(p) && s[:len(p)] == p`. -/
def HasPrefix (s p : GoString) : Bool :=
  decide (p.length ≤ s.length) && (s.take p.length == p)

/-- Go `strings.HasSuffix`: `len(s) >= len(suffix) && s[len(s)-len(suffix):] == suffix`. -/
def HasSuffix (s suffix : GoString) : Bool :=
  decide (suffix.length ≤ s.length) && (s.drop (s.length - suffix.length) == suffix)

/-- The scan behind `strings.Index`: the least offset (counted from `i`) at
which `substr` starts in `s`. -/
def indexFrom (substr : GoString) : GoString → Nat → Option Nat
  | [], i => if HasPrefix [] substr then some i else none
  | c :: cs, i => if HasPrefix (c :: cs) substr then some i else indexFrom substr cs (i + 1)

/-- Go `strings.Index`: the index of the first instance of `substr` in `s`,
or `-1` if `substr` is not present. -/
def Index (s substr : GoString) : Int :=
  match indexFrom substr s 0 with
  | some i => (i : Int)
  | none => -1

end strings

namespace filepath

/-- Unix `os.IsPathSeparator`. -/
def IsPathSeparator (c : Char) : Bool := c == '/'

/-- The loop of `filepath.Split`: starting at the last character, step left
while the character is not a separator.  The result is `i + 1`, the length of
the directory part. -/
def splitPoint (path : GoString) : Nat :=
  (path.reverse.dropWhile (fun c => !IsPathSeparator c)).length

/-- Go `filepath.Split` (Unix, empty volume name): splits immediately after the
final separator; with no separator the directory is empty. -/
def Split (path : GoString) : GoString × GoString :=
  (path.take (splitPoint path), path.drop (splitPoint path))

end filepath

/-- Decimal rendering of a non-negative integer, the `%d` verb of `fmt`. -/
def fmtD (k : Nat) : GoString := (Nat.repr k).toList

/-- A Go `map[string]V`, as an association list holding each key once.  The
order of the list carries no meaning for the program: a `range` over the map
takes its own order (see `coverageReport`). -/
abbrev GoMap (V : Type) := List (GoString × V)

/-! ## The generator: `visit` and the walk -/

/-- A Go `error` value, as its message. -/
abbrev GoError := GoString

/-- What `exec.Cmd.Output` returns: captured standard output and an error. -/
structure ExecResult where
  out : GoString
  err : Option GoError
deriving DecidableEq, Repr

/-- The world outside the program. -/
structure Env where
  /-- Running `go tool cover -mode=set -var <name> <path>`. -/
  cover : GoString → GoString → ExecResult
  /-- Whether `ioutil.WriteFile` to the given path fails. -/
  writeErr : GoString → Bool

/-- Package-level variables of the generator together with the trace of its
effects on the outside world. -/
structure State where
  /-- `var n int` -/
  n : Nat
  /-- `var pkgs = map[string]bool{}` as an association list. -/
  pkgs : GoMap Bool
  /-- `var importText string` -/
  importText : GoString
  /-- `var initText string` -/
  initText : GoString
  /-- Everything written to standard output. -/
  stdout : GoString
  /-- Argument vectors of the commands run, oldest first. -/
  execs : List (List GoString)
  /-- Files written successfully by `ioutil.WriteFile`, oldest first. -/
  writes : List (GoString × GoString)
deriving DecidableEq, Repr

/-- The state at program start. -/
def State.init : State :=
  { n := 0, pkgs := [], importText := [], initText := [], stdout := [], execs := [], writes := [] }

/-- Map read `m[k]`: the zero value when the key is absent. -/
def mapGet {V : Type} (zero : V) : GoMap V → GoString → V
  | [], _ => zero
  | (k', v) :: rest, k => if k' = k then v else mapGet zero rest k

/-- Map write `m[k] = v`: replaces the entry of `k`, or adds one. -/
def mapSet {V : Type} : GoMap V → GoString → V → GoMap V
  | [], k, v => [(k, v)]
  | (k', w) :: rest, k, v => if k' = k then (k', v) :: rest else (k', w) :: mapSet rest k v

/-- How a function call ends: it returns an error value (`none` is `nil`), or
it panics. -/
inductive Outcome where
  | ret (err : Option GoError) (s : State)
  | panic (msg : GoString) (s : State)
deriving DecidableEq, Repr

/-- The slice expression `dir[:len(dir)-1]`; out of range on the empty string. -/
def dropLast? (dir : GoString) : Option GoString :=
  if dir.length = 0 then none else some (dir.take (dir.length - 1))

/-- The anchor `"cmd/compile/"`. -/
def anchor : GoString := "cmd/compile/".toList

/-- `fmt.Sprintf("\t\"%s\"\n", dir)` -/
def importLine (dir : GoString) : GoString :=
  "\t\"".toList ++ dir ++ "\"\n".toList

/-- `fmt.Sprintf("GoCover_%d", n)` -/
def varName (n : Nat) : GoString := "GoCover_".toList ++ fmtD n

/-- The registration statement appended to `initText`:
`"\tcoverRegisterFile(\"%s\", %s.GoCover_%d.Count[:], %s.GoCover_%d.Pos[:], %s.GoCover_%d.NumStmt[:])\n"`
applied to `path, pkg, n, pkg, n, pkg, n`. -/
def registerLine (path pkg : GoString) (n : Nat) : GoString :=
  "\tcoverRegisterFile(\"".toList ++ path ++ "\", ".toList
    ++ pkg ++ ".GoCover_".toList ++ fmtD n ++ ".Count[:], ".toList
    ++ pkg ++ ".GoCover_".toList ++ fmtD n ++ ".Pos[:], ".toList
    ++ pkg ++ ".GoCover_".toList ++ fmtD n ++ ".NumStmt[:])\n".toList

/-- The tail of `visit`, from `if !pkgs[dir]` on, for a file that passed the
filter. -/
def instrument (env : Env) (path dir pkg : GoString) (s : State) : Outcome :=
  let s1 : State :=
    if !mapGet false s.pkgs dir then
      { s with pkgs := mapSet s.pkgs dir true, importText := s.importText ++ importLine dir }
    else s
  let s2 : State := { s1 with stdout := s1.stdout ++ ("processing ".toList ++ path ++ "\n".toList) }
  let argv : List GoString :=
    ["go".toList, "tool".toList, "cover".toList, "-mode=set".toList, "-var".toList,
      varName s2.n, path]
  let r := env.cover (varName s2.n) path
  let s3 : State := { s2 with execs := s2.execs ++ [argv] }
  match r.err with
  | some e => Outcome.panic e { s3 with stdout := s3.stdout ++ r.out }
  | none =>
    let s4 : State :=
      if env.writeErr path then s3 else { s3 with writes := s3.writes ++ [(path, r.out)] }
    Outcome.ret none
      { s4 with initText := s4.initText ++ registerLine path pkg s4.n, n := s4.n + 1 }

set_option linter.unusedVariables false in
/-- The walk function `visit(path string, f os.FileInfo, err error) error`.
The `os.FileInfo` argument is never read and is left out; `err` is the error
the walker passes in, which the body never reads either. -/
def visit (env : Env) (path : GoString) (err : Option GoError) (s : State) : Outcome :=
  let i := strings.Index path anchor
  if i = -1 then Outcome.ret none s
  else
    let path := path.drop i.toNat
    let (dir, name) := filepath.Split path
    match dropLast? dir with
    | none => Outcome.panic "slice bounds out of range".toList s
    | some dir =>
      let pkg := (filepath.Split dir).2
      if !strings.HasSuffix name ".go".toList then Outcome.ret none s
      else if strings.HasSuffix name "_test.go".toList then Outcome.ret none s
      else if name = "mkbuiltin.go".toList then Outcome.ret none s
      else if name = "builtin.go".toList then Outcome.ret none s
      else if pkg = "gen".toList || pkg = "testdata".toList || pkg = "builtin".toList
          || pkg = "test".toList || pkg = "compile".toList then Outcome.ret none s
      else instrument env path dir pkg s

/-- One call the walker makes: a path and the error met while reading it. -/
structure WalkEntry where
  path : GoString
  err : Option GoError
deriving DecidableEq, Repr

/-- Go `filepath.Walk` over the entries the tree yields, in order: the walk
function is called on each; a non-nil result stops the walk and is returned, a
panic unwinds through it. -/
def Walk (walkFn : GoString → Option GoError → State → Outcome) :
    List WalkEntry → State → Outcome
  | [], s => Outcome.ret none s
  | e :: rest, s =>
    match walkFn e.path e.err s with
    | Outcome.ret none s1 => Walk walkFn rest s1
    | Outcome.ret (some x) s1 => Outcome.ret (some x) s1
    | Outcome.panic m s1 => Outcome.panic m s1

/-- Lines 34 to 37 of `main`: the walk, and the panic on a non-nil result.
`genCover` runs after a normal return. -/
def mainWalk (env : Env) (entries : List WalkEntry) (s : State) : Outcome :=
  match Walk (visit env) entries s with
  | Outcome.ret (some e) s1 => Outcome.panic e s1
  | Outcome.ret none s1 => Outcome.ret none s1
  | Outcome.panic m s1 => Outcome.panic m s1

/-- The state in which a call ends. -/
def Outcome.state : Outcome → State
  | Outcome.ret _ s => s
  | Outcome.panic _ s => s

/-- The filter of `visit` on its own (lines 50 to 79): for a path that reaches
the instrumentation, the anchor-relative path, its directory and the package
name; `none` for a path that makes `visit` return early. -/
def accept? (path : GoString) : Option (GoString × GoString × GoString) :=
  let i := strings.Index path anchor
  if i = -1 then none
  else
    let path := path.drop i.toNat
    let (dir, name) := filepath.Split path
    let dir := dir.take (dir.length - 1)
    let pkg := (filepath.Split dir).2
    if !strings.HasSuffix name ".go".toList then none
    else if strings.HasSuffix name "_test.go".toList then none
    else if name = "mkbuiltin.go".toList then none
    else if name = "builtin.go".toList then none
    else if pkg = "gen".toList || pkg = "testdata".toList || pkg = "builtin".toList
        || pkg = "test".toList || pkg = "compile".toList then none
    else some (path, dir, pkg)

/-- The name and package tests of the filter (lines 59 to 79) as one
condition. -/
def passes (name pkg : GoString) : Bool :=
  strings.HasSuffix name ".go".toList && !strings.HasSuffix name "_test.go".toList
    && !decide (name = "mkbuiltin.go".toList) && !decide (name = "builtin.go".toList)
    && !(pkg = "gen".toList || pkg = "testdata".toList || pkg = "builtin".toList
        || pkg = "test".toList || pkg = "compile".toList)

/-- The call runs the external tool: the trace of commands has grown. -/
def RunsTool (o : Outcome) (s : State) : Prop := o.state.execs ≠ s.execs

/-! ## The generated driver: registry and report -/

/-- A Go slice value; `none` is the nil slice, `some []` an empty non-nil one.
Elements of `[]uint32` and `[]uint16` are natural numbers. -/
abbrev Slice (α : Type) := Option (List α)

/-- Go `len(s)`. -/
def Slice.len {α : Type} : Slice α → Nat
  | none => 0
  | some l => l.length

/-- The index expression `s[i]`; `none` when it is out of range. -/
def Slice.at? {α : Type} : Slice α → Nat → Option α
  | none, _ => none
  | some l, i => l[i]?

/-- Go `testing.CoverBlock`. -/
structure CoverBlock where
  /-- `uint32` -/
  Line0 : Nat
  /-- `uint16` -/
  Col0 : Nat
  /-- `uint32` -/
  Line1 : Nat
  /-- `uint16` -/
  Col1 : Nat
  /-- `uint16` -/
  Stmts : Nat
deriving DecidableEq, Repr

/-- The two package-level maps of the driver. -/
structure Registry where
  /-- `coverCounters = make(map[string][]uint32)` -/
  coverCounters : GoMap (Slice Nat)
  /-- `coverBlocks = make(map[string][]testing.CoverBlock)` -/
  coverBlocks : GoMap (Slice CoverBlock)
deriving DecidableEq, Repr

/-- Both maps empty, as the variable declarations leave them. -/
def Registry.empty : Registry := { coverCounters := [], coverBlocks := [] }

/-- How a call of `coverRegisterFile` ends. -/
inductive RegOutcome where
  | ok (r : Registry)
  | panic (msg : GoString) (r : Registry)
deriving DecidableEq, Repr

/-- The conversion `uint16(x)`. -/
def toUint16 (x : Nat) : Nat := x % 2 ^ 16

/-- The composite literal assigned to `block[i]` (lines 145 to 151). -/
def mkBlock (pos numStmts : Slice Nat) (i : Nat) : Option CoverBlock :=
  match pos.at? (3 * i + 0), pos.at? (3 * i + 2), pos.at? (3 * i + 1), numStmts.at? i with
  | some l0, some w, some l1, some st =>
    some { Line0 := l0, Col0 := toUint16 w, Line1 := l1, Col1 := toUint16 (w >>> 16), Stmts := st }
  | _, _, _, _ => none

/-- The loop `for i := range counter { block[i] = ... }` from index `i` on,
with `k` indices left; `none` when an index expression is out of range. -/
def fillBlocks (pos numStmts : Slice Nat) : Nat → Nat → Option (List CoverBlock)
  | _, 0 => some []
  | i, k + 1 =>
    match mkBlock pos numStmts i with
    | none => none
    | some b =>
      match fillBlocks pos numStmts (i + 1) k with
      | none => none
      | some bs => some (b :: bs)

/-- The message of the size check. -/
def mismatched : GoString := "coverage: mismatched sizes".toList

/-- The function
`coverRegisterFile(fileName string, counter []uint32, pos []uint32, numStmts []uint16)`. -/
def coverRegisterFile (fileName : GoString) (counter pos numStmts : Slice Nat) (r : Registry) :
    RegOutcome :=
  if 3 * counter.len ≠ pos.len ∨ counter.len ≠ numStmts.len then
    RegOutcome.panic mismatched r
  else if mapGet none r.coverCounters fileName ≠ none then
    RegOutcome.ok r
  else
    let r1 : Registry := { r with coverCounters := mapSet r.coverCounters fileName counter }
    match fillBlocks pos numStmts 0 counter.len with
    | none => RegOutcome.panic "index out of range".toList r1
    | some block =>
      RegOutcome.ok { r1 with coverBlocks := mapSet r1.coverBlocks fileName (some block) }

/-- The arguments of one call of `coverRegisterFile`. -/
structure Call where
  fileName : GoString
  counter : Slice Nat
  pos : Slice Nat
  numStmts : Slice Nat
deriving DecidableEq, Repr

/-- A sequence of calls of `coverRegisterFile`, as the body of `init` makes
them; a panic ends the sequence. -/
def runCalls : List Call → Registry → RegOutcome
  | [], r => RegOutcome.ok r
  | c :: rest, r =>
    match coverRegisterFile c.fileName c.counter c.pos c.numStmts r with
    | RegOutcome.ok r1 => runCalls rest r1
    | RegOutcome.panic m r1 => RegOutcome.panic m r1

/-- Go `testing.Cover`, the fields the driver sets and reads. -/
structure Cover where
  Mode : GoString
  Counters : GoMap (Slice Nat)
  Blocks : GoMap (Slice CoverBlock)
deriving DecidableEq, Repr

/-- The assignment to `cover` at the end of `init`. -/
def initCover (r : Registry) : Cover :=
  { Mode := "set".toList, Counters := r.coverCounters, Blocks := r.coverBlocks }

/-- The errors the operating system may answer with during one flush, and the
order in which `range` walks the map. -/
structure FlushEnv where
  /-- The result of `os.OpenFile`. -/
  openErr : Option GoError
  /-- The result of `f.Stat`. -/
  statErr : Option GoError
  /-- Whether writing the header fails (the program discards that error). -/
  headerErr : Bool
  /-- The result of the `k`-th write of a data line, counted from 0. -/
  writeErr : Nat → Option GoError
  /-- The result of `f.Close`. -/
  closeErr : Option GoError

/-- A flush during which no call fails. -/
def FlushEnv.ok : FlushEnv :=
  { openErr := none, statErr := none, headerErr := false, writeErr := fun _ => none,
    closeErr := none }

/-- What a flush leaves behind. -/
structure Output where
  /-- Content of `/tmp/cover.out`; `none` while the file does not exist. -/
  file : Option GoString
  /-- The writes made to the file, in order. -/
  written : List GoString
  /-- Everything written to standard error. -/
  stderr : GoString
deriving DecidableEq, Repr

/-- A successful write to the file, which is open in append mode. -/
def Output.write (o : Output) (text : GoString) : Output :=
  { o with file := some (o.file.getD [] ++ text), written := o.written ++ [text] }

/-- How `coverageReport` ends: it returns, the process exits, or it panics. -/
inductive ReportOutcome where
  | done (o : Output)
  | exit (code : Nat) (o : Output)
  | panic (msg : GoString) (o : Output)
deriving DecidableEq, Repr

/-- The function `mustBeNil(err)`, followed by the rest of the caller. -/
def mustBeNil (err : Option GoError) (o : Output) (rest : Output → ReportOutcome) :
    ReportOutcome :=
  match err with
  | some e =>
    ReportOutcome.exit 2 { o with stderr := o.stderr ++ ("cover: ".toList ++ e ++ "\n".toList) }
  | none => rest o

/-- `fmt.Sprintf("mode: %s\n", mode)` -/
def headerLine (mode : GoString) : GoString := "mode: ".toList ++ mode ++ "\n".toList

/-- `fmt.Sprintf("%s:%d.%d,%d.%d %d %d\n", name, Line0, Col0, Line1, Col1, stmts, count)` -/
def dataLine (name : GoString) (b : CoverBlock) (count : Nat) : GoString :=
  name ++ ":".toList ++ fmtD b.Line0 ++ ".".toList ++ fmtD b.Col0 ++ ",".toList
    ++ fmtD b.Line1 ++ ".".toList ++ fmtD b.Col1 ++ " ".toList ++ fmtD b.Stmts
    ++ " ".toList ++ fmtD count ++ "\n".toList

/-- The inner loop `for i := range counts` from index `i` on; `k` counts the
data lines written so far in this flush.  The result is the state to go on
with, or the way the flush ended. -/
def reportCounts (os : FlushEnv) (name : GoString) (blocks : Slice CoverBlock) :
    List Nat → Nat → Output × Nat → Except ReportOutcome (Output × Nat)
  | [], _, st => Except.ok st
  | count :: rest, i, (o, k) =>
    match blocks.at? i with
    | none => Except.error (ReportOutcome.panic "index out of range".toList o)
    | some b =>
      match os.writeErr k with
      | some e => Except.error (mustBeNil (some e) o ReportOutcome.done)
      | none => reportCounts os name blocks rest (i + 1) (o.write (dataLine name b count), k + 1)

/-- The outer loop `for name, counts := range cover.Counters`, over the entries
in the order the runtime picked. -/
def reportFiles (os : FlushEnv) (cover : Cover) :
    List (GoString × Slice Nat) → Output × Nat → Except ReportOutcome (Output × Nat)
  | [], st => Except.ok st
  | (name, counts) :: rest, st =>
    match reportCounts os name (mapGet none cover.Blocks name) (counts.getD []) 0 st with
    | Except.error e => Except.error e
    | Except.ok st1 => reportFiles os cover rest st1

/-- The deferred `mustBeNil(f.Close())`, which runs when the function returns
and when it panics, and not when the process has exited. -/
def deferredClose (os : FlushEnv) : ReportOutcome → ReportOutcome
  | ReportOutcome.done o => mustBeNil os.closeErr o ReportOutcome.done
  | ReportOutcome.panic m o => mustBeNil os.closeErr o (ReportOutcome.panic m)
  | ReportOutcome.exit c o => ReportOutcome.exit c o

/-- Lines 161 to 163: the header, written when the file is empty. -/
def writeHeader (os : FlushEnv) (cover : Cover) (o : Output) : Output :=
  if (o.file.getD []).length = 0 then
    if os.headerErr then o else o.write (headerLine cover.Mode)
  else o

/-- Lines 164 to 178: the two loops, and the deferred close on the way out. -/
def reportLoop (os : FlushEnv) (iter : List (GoString × Slice Nat)) (cover : Cover)
    (o : Output) : ReportOutcome :=
  deferredClose os
    (match reportFiles os cover iter (o, 0) with
      | Except.error e => e
      | Except.ok (o4, _) => ReportOutcome.done o4)

/-- The function `coverageReport()`.  `iter` is the sequence of entries that the
`range` over `cover.Counters` yields, `file` the content of `/tmp/cover.out`
before the call (`none` if there is no such file). -/
def coverageReport (os : FlushEnv) (iter : List (GoString × Slice Nat)) (cover : Cover)
    (file : Option GoString) : ReportOutcome :=
  let o0 : Output := { file := file, written := [], stderr := [] }
  mustBeNil os.openErr o0 fun o =>
    let o1 : Output := { o with file := some (o.file.getD []) }
    mustBeNil os.statErr o1 fun o2 =>
      reportLoop os iter cover (writeHeader os cover o2)

/-- The counters of a registry after the instrumented program has run on: the
same files with slices of the same lengths (a nil slice stays nil),
whatever the values. -/
def SameShape (a b : GoMap (Slice Nat)) : Prop :=
  List.Forall₂ (fun x y => x.1 = y.1 ∧ x.2.len = y.2.len ∧ x.2.isSome = y.2.isSome) a b

/-- The registry states a run of the instrumented program can be in: the empty
registry, extended by calls of `coverRegisterFile` that return, with counters
that the instrumented code updates in place. -/
inductive Reachable : Registry → Prop where
  | empty : Reachable Registry.empty
  | register (r r1 : Registry) (c : Call) :
      Reachable r → coverRegisterFile c.fileName c.counter c.pos c.numStmts r = RegOutcome.ok r1 →
      Reachable r1
  | count (r : Registry) (counters : GoMap (Slice Nat)) :
      Reachable r → SameShape r.coverCounters counters →
      Reachable { r with coverCounters := counters }

/-- The data lines of one file: one per counter, built from the block with the
same index. -/
def fileLines (name : GoString) (blocks : Slice CoverBlock) (counts : Slice Nat) :
    List GoString :=
  List.zipWith (dataLine name) (blocks.getD []) (counts.getD [])

/-- The data lines of a flush that walks the entries `iter`. -/
def reportLines (cover : Cover) (iter : List (GoString × Slice Nat)) : List GoString :=
  iter.flatMap fun e => fileLines e.1 (mapGet none cover.Blocks e.1) e.2


/-! ## Reading a walk -/

/-- The entries on which the walk function is called before `Walk` ends: all of
them, or those up to and including the first on which the call does not return
nil. -/
def visited (walkFn : GoString → Option GoError → State → Outcome) :
    List WalkEntry → State → List WalkEntry
  | [], _ => []
  | e :: rest, s =>
    match walkFn e.path e.err s with
    | Outcome.ret none s1 => e :: visited walkFn rest s1
    | _ => [e]

/-- The anchor-relative paths of the accepted files among `entries`, in order. -/
def acceptedPaths (entries : List WalkEntry) : List GoString :=
  entries.filterMap fun e => (accept? e.path).map fun t => t.1

/-- The directories of the accepted files among `entries`, in order, one per
accepted file. -/
def acceptedDirs (entries : List WalkEntry) : List GoString :=
  entries.filterMap fun e => (accept? e.path).map fun t => t.2.1

/-- Each element once, at the place of its first occurrence. -/
def firstOccurrences (l : List GoString) : List GoString := l.reverse.dedup.reverse

/-- The accepted files among `entries`, in order: for each its anchor-relative
path, its directory and its package name. -/
def accepted (entries : List WalkEntry) : List (GoString × GoString × GoString) :=
  entries.filterMap fun e => accept? e.path

/-- The argument vector `go tool cover -mode=set -var GoCover_<k> <path>`. -/
def toolArgv (k : Nat) (path : GoString) : List GoString :=
  ["go".toList, "tool".toList, "cover".toList, "-mode=set".toList, "-var".toList,
    "GoCover_".toList ++ fmtD k, path]

/-- The external tool succeeds on every accepted file among `entries`, under
whatever variable name. -/
def ToolSucceeds (env : Env) (entries : List WalkEntry) : Prop :=
  ∀ e ∈ entries, ∀ t, accept? e.path = some t → ∀ v, (env.cover v t.1).err = none

/-- What the import bookkeeping has recorded once the accepted files had the
directories `dirs`, in that order. -/
def ImportsRecorded (dirs : List GoString) (s : State) : Prop :=
  s.importText = (firstOccurrences dirs).flatMap importLine ∧
    ∀ d, mapGet false s.pkgs d = true ↔ d ∈ dirs

/-! ## Reading a flush -/

/-- What a flush has left behind, however it ended. -/
def ReportOutcome.output : ReportOutcome → Output
  | ReportOutcome.done o => o
  | ReportOutcome.exit _ o => o
  | ReportOutcome.panic _ o => o

/-- The output a loop of the flush has reached, whether it goes on or has
ended the flush. -/
def loopOutput : Except ReportOutcome (Output × Nat) → Output
  | Except.ok st => st.1
  | Except.error e => e.output

/-- Every line of `ls` is a data line, in the format of `dataLine`. -/
def AllData (ls : List GoString) : Prop :=
  ∀ l ∈ ls, ∃ name b count, l = dataLine name b count

/-- No call to the operating system fails during the flush. -/
def FlushEnv.NoFault (os : FlushEnv) : Prop :=
  os.openErr = none ∧ os.statErr = none ∧ os.headerErr = false ∧
    (∀ k, os.writeErr k = none) ∧ os.closeErr = none

/-- The two maps of a registry agree: each file has one entry, and as many
blocks as counters. -/
def Registry.Consistent (r : Registry) : Prop :=
  (r.coverCounters.map Prod.fst).Nodup ∧
    ∀ e ∈ r.coverCounters, Slice.len (mapGet none r.coverBlocks e.1) = Slice.len e.2

/-- The number of counters over all registered files. -/
def Registry.numCounters (r : Registry) : Nat :=
  (r.coverCounters.map fun e => Slice.len e.2).sum

/-- The number of lines of a text: its newline characters. -/
def lineCount (text : GoString) : Nat := text.count '\n'

/-- Whether the flush ended in a panic. -/
def ReportOutcome.isPanic : ReportOutcome → Bool
  | ReportOutcome.panic _ _ => true
  | _ => false

/-- Whether a loop of the flush ended the flush in a panic. -/
def loopPanics : Except ReportOutcome (Output × Nat) → Bool
  | Except.error e => e.isPanic
  | Except.ok _ => false

/-- Whether the call ended in a panic. -/
def Outcome.isPanic : Outcome → Bool
  | Outcome.ret _ _ => false
  | Outcome.panic _ _ => true

/-- The header that a flush writes first: one line when the file is empty or
absent and the open, the stat and the write succeed, none otherwise. -/
def headerWritten (os : FlushEnv) (mode : GoString) (file : Option GoString) : List GoString :=
  if os.openErr = none ∧ os.statErr = none ∧ (file.getD []).length = 0 ∧ os.headerErr = false
  then [headerLine mode] else []

/-! ## Sample data -/

/-- The registry after registering `a.go` with one counter, whose position
triple is `1, 2, 3`. -/
def sampleRegistry : Registry :=
  { coverCounters := [("a.go".toList, some [0])],
    coverBlocks := [("a.go".toList,
      some [{ Line0 := 1, Col0 := 3, Line1 := 2, Col1 := 0, Stmts := 1 }])] }

/-- A tool that always succeeds and prints the variable name followed by the
path, and a file system on which every write succeeds. -/
def sampleEnv : Env :=
  { cover := fun v p => { out := v ++ p, err := none }, writeErr := fun _ => false }

/-- A walk over two files of package `ssa`, a test file and a file of package
`gc`. -/
def sampleEntries : List WalkEntry :=
  [ { path := "/go/src/cmd/compile/internal/ssa/a.go".toList, err := none },
    { path := "/go/src/cmd/compile/internal/ssa/a_test.go".toList, err := none },
    { path := "/go/src/cmd/compile/internal/ssa/b.go".toList, err := none },
    { path := "/go/src/cmd/compile/internal/gc/c.go".toList, err := none } ]

/-- The sample registry after the instrumented program has set the counter. -/
def sampleCounted : Registry :=
  { coverCounters := [("a.go".toList, some [1])],
    coverBlocks := [("a.go".toList,
      some [{ Line0 := 1, Col0 := 3, Line1 := 2, Col1 := 0, Stmts := 1 }])] }

/-- A walk in which the directory `gc` cannot be read: the walker reports the
error on the directory and goes on to the next file. -/
def unreadableEntries : List WalkEntry :=
  [ { path := "/go/src/cmd/compile/internal/gc".toList,
      err := some "open /go/src/cmd/compile/internal/gc: permission denied".toList },
    { path := "/go/src/cmd/compile/internal/ssa/a.go".toList, err := none } ]

/-- A tool that always succeeds, on a tree in which no file can be written. -/
def readOnlyEnv : Env :=
  { cover := fun v p => { out := v ++ p, err := none }, writeErr := fun _ => true }

/-- A tool that fails on every file, printing a diagnostic. -/
def failingEnv : Env :=
  { cover := fun _ p => { out := "cover: cannot parse ".toList ++ p,
                          err := some "exit status 1".toList },
    writeErr := fun _ => false }

/-- The walk of the end-to-end scenario, rooted at `/go/src/cmd/compile`: the
directories and files in the lexical order in which `filepath.Walk` calls the
walk function. -/
def scenarioEntries : List WalkEntry :=
  [ { path := "/go/src/cmd/compile".toList, err := none },
    { path := "/go/src/cmd/compile/builtin".toList, err := none },
    { path := "/go/src/cmd/compile/builtin/b.go".toList, err := none },
    { path := "/go/src/cmd/compile/pkg".toList, err := none },
    { path := "/go/src/cmd/compile/pkg/a".toList, err := none },
    { path := "/go/src/cmd/compile/pkg/a/a.go".toList, err := none },
    { path := "/go/src/cmd/compile/pkg/a/a_test.go".toList, err := none } ]

/-! ## The specification's words -/

/-- `suf` is the part of `s` that starts at the first occurrence of `sub`, and
`pre` is what comes before it. -/
def FirstAt (sub s pre suf : GoString) : Prop :=
  s = pre ++ suf ∧ sub <+: suf ∧
    ∀ pre' suf', s = pre' ++ suf' → sub <+: suf' → pre.length ≤ pre'.length


/-- The eligibility rule in the words of the specification: the path contains
the anchor; the part from its first occurrence on is `d ++ "/" ++ name` with no
separator in `name`; `seg` is the last segment of `d`; and the name and the
segment pass the exclusions. -/
def Eligible (path : GoString) : Prop :=
  ∃ pre d name d0 seg,
    FirstAt anchor path pre (d ++ '/' :: name) ∧ '/' ∉ name ∧
    d = d0 ++ seg ∧ '/' ∉ seg ∧ (d0 = [] ∨ ∃ d1, d0 = d1 ++ ['/']) ∧
    ".go".toList <:+ name ∧ ¬ "_test.go".toList <:+ name ∧
    name ≠ "mkbuiltin.go".toList ∧ name ≠ "builtin.go".toList ∧
    seg ≠ "gen".toList ∧ seg ≠ "testdata".toList ∧ seg ≠ "builtin".toList ∧
    seg ≠ "test".toList ∧ seg ≠ "compile".toList


/-! ## Library lemmas -/

theorem HasPrefix_iff (s p : GoString) : strings.HasPrefix s p = true ↔ p <+: s := by
  unfold strings.HasPrefix
  rw [List.prefix_iff_eq_take]
  constructor
  · intro h
    simp only [Bool.and_eq_true, decide_eq_true_eq, beq_iff_eq] at h
    exact h.2.symm
  · intro h
    simp only [Bool.and_eq_true, decide_eq_true_eq, beq_iff_eq]
    refine ⟨?_, h.symm⟩
    have := congrArg List.length h
    simp at this
    omega

theorem HasSuffix_iff (s x : GoString) : strings.HasSuffix s x = true ↔ x <:+ s := by
  unfold strings.HasSuffix
  rw [List.suffix_iff_eq_drop]
  constructor
  · intro h
    simp only [Bool.and_eq_true, decide_eq_true_eq, beq_iff_eq] at h
    exact h.2.symm
  · intro h
    simp only [Bool.and_eq_true, decide_eq_true_eq, beq_iff_eq]
    refine ⟨?_, h.symm⟩
    have := congrArg List.length h
    simp at this
    omega

theorem indexFrom_some (sub : GoString) : ∀ (s : GoString) (i k : Nat),
    strings.indexFrom sub s i = some k →
      ∃ j, k = i + j ∧ j ≤ s.length ∧ sub <+: s.drop j ∧ ∀ j', j' < j → ¬ sub <+: s.drop j' := by
  intro s
  induction s with
  | nil =>
    intro i k h
    simp only [strings.indexFrom] at h
    split at h
    · rename_i hp
      refine ⟨0, ?_, le_refl _, ?_, ?_⟩
      · simpa using (Option.some.inj h).symm
      · simpa using (HasPrefix_iff _ _).1 hp
      · intro j' hj'; omega
    · cases h
  | cons c cs ih =>
    intro i k h
    simp only [strings.indexFrom] at h
    split at h
    · rename_i hp
      refine ⟨0, ?_, Nat.zero_le _, ?_, ?_⟩
      · simpa using (Option.some.inj h).symm
      · simpa using (HasPrefix_iff _ _).1 hp
      · intro j' hj'; omega
    · rename_i hp
      obtain ⟨j, hk, hj, hpre, hmin⟩ := ih (i + 1) k h
      refine ⟨j + 1, by omega, by simpa using hj, by simpa using hpre, ?_⟩
      intro j' hj'
      cases j' with
      | zero =>
        intro hc
        exact hp ((HasPrefix_iff _ _).2 (by simpa using hc))
      | succ m =>
        simpa using hmin m (by omega)

theorem indexFrom_none (sub : GoString) : ∀ (s : GoString) (i : Nat),
    strings.indexFrom sub s i = none → ∀ j, ¬ sub <+: s.drop j := by
  intro s
  induction s with
  | nil =>
    intro i h j
    simp only [strings.indexFrom] at h
    split at h
    · cases h
    · rename_i hp
      intro hc
      exact hp ((HasPrefix_iff _ _).2 (by simpa using hc))
  | cons c cs ih =>
    intro i h j
    simp only [strings.indexFrom] at h
    split at h
    · cases h
    · rename_i hp
      cases j with
      | zero =>
        intro hc
        exact hp ((HasPrefix_iff _ _).2 (by simpa using hc))
      | succ m => simpa using ih (i + 1) h m

theorem indexFrom_firstAt (sub s : GoString) (k : Nat)
    (h : strings.indexFrom sub s 0 = some k) :
    k ≤ s.length ∧ FirstAt sub s (s.take k) (s.drop k) := by
  obtain ⟨j, hk, hj, hpre, hmin⟩ := indexFrom_some sub s 0 k h
  have hkj : k = j := by omega
  subst hkj
  refine ⟨hj, (List.take_append_drop k s).symm, hpre, ?_⟩
  intro pre' suf' hs hp
  by_contra hlt
  have hlt' : pre'.length < k := by
    have : (List.take k s).length = k := by simp [hj]
    omega
  apply hmin pre'.length hlt'
  rw [hs, List.drop_left]
  exact hp

theorem firstAt_indexFrom (sub s pre suf : GoString) (h : FirstAt sub s pre suf) :
    strings.indexFrom sub s 0 = some pre.length := by
  obtain ⟨hs, hp, hmin⟩ := h
  cases hidx : strings.indexFrom sub s 0 with
  | none =>
    exfalso
    apply indexFrom_none sub s 0 hidx pre.length
    rw [hs, List.drop_left]
    exact hp
  | some k =>
    obtain ⟨j, hk, hj, hpre, hmin'⟩ := indexFrom_some sub s 0 k hidx
    have hkj : k = j := by omega
    subst hkj
    have h1 : pre.length ≤ k := by
      have := hmin (s.take k) (s.drop k) (List.take_append_drop k s).symm hpre
      simpa [hj] using this
    have h2 : ¬ pre.length < k := by
      intro hlt
      apply hmin' pre.length hlt
      rw [hs, List.drop_left]
      exact hp
    congr 1
    omega

theorem firstAt_unique (sub s pre suf pre' suf' : GoString)
    (h : FirstAt sub s pre suf) (h' : FirstAt sub s pre' suf') : pre = pre' ∧ suf = suf' := by
  have hl : pre.length = pre'.length :=
    le_antisymm (h.2.2 pre' suf' h'.1 h'.2.1) (h'.2.2 pre suf h.1 h.2.1)
  have := h.1.symm.trans h'.1
  exact List.append_inj this hl

theorem infix_iff_firstAt (sub s : GoString) :
    sub <:+: s ↔ ∃ pre suf, FirstAt sub s pre suf := by
  constructor
  · rintro ⟨a, b, hab⟩
    cases hidx : strings.indexFrom sub s 0 with
    | none =>
      exfalso
      apply indexFrom_none sub s 0 hidx a.length
      rw [← hab, List.append_assoc, List.drop_left]
      exact List.prefix_append _ _
    | some k => exact ⟨_, _, (indexFrom_firstAt sub s k hidx).2⟩
  · rintro ⟨pre, suf, hs, ⟨t, ht⟩, -⟩
    exact ⟨pre, t, by rw [hs, ← ht, List.append_assoc]⟩

theorem Index_eq_neg_one_iff (s sub : GoString) : strings.Index s sub = -1 ↔ ¬ sub <:+: s := by
  unfold strings.Index
  cases hidx : strings.indexFrom sub s 0 with
  | none =>
    simp only [true_iff]
    rw [infix_iff_firstAt]
    rintro ⟨pre, suf, h⟩
    rw [firstAt_indexFrom sub s pre suf h] at hidx
    cases hidx
  | some k =>
    have : sub <:+: s := (infix_iff_firstAt sub s).2 ⟨_, _, (indexFrom_firstAt sub s k hidx).2⟩
    simp only [this, not_true_eq_false, iff_false]
    omega

theorem Index_of_firstAt (sub s pre suf : GoString) (h : FirstAt sub s pre suf) :
    strings.Index s sub = (pre.length : Int) ∧ s.drop (strings.Index s sub).toNat = suf := by
  unfold strings.Index
  rw [firstAt_indexFrom sub s pre suf h]
  refine ⟨rfl, ?_⟩
  simp only [Int.toNat_ofNat]
  rw [h.1, List.drop_left]

theorem dropWhile_append_all {α : Type} (p : α → Bool) :
    ∀ (l r : List α), (∀ x ∈ l, p x = true) → (l ++ r).dropWhile p = r.dropWhile p := by
  intro l
  induction l with
  | nil => intro r _; rfl
  | cons a l ih =>
    intro r h
    have ha : p a = true := h a (List.mem_cons_self _ _)
    simp only [List.cons_append, List.dropWhile_cons, ha, if_true]
    exact ih r (fun x hx => h x (List.mem_cons_of_mem _ hx))

theorem splitPoint_append (d name : GoString) (hn : '/' ∉ name) :
    filepath.splitPoint (d ++ '/' :: name) = d.length + 1 := by
  unfold filepath.splitPoint
  have hrev : (d ++ '/' :: name).reverse = name.reverse ++ '/' :: d.reverse := by simp
  rw [hrev, dropWhile_append_all]
  · simp [filepath.IsPathSeparator]
  · intro x hx
    have hx' : x ∈ name := List.mem_reverse.1 hx
    have : x ≠ '/' := fun h => hn (h ▸ hx')
    simp [filepath.IsPathSeparator, this]

theorem Split_append (d name : GoString) (hn : '/' ∉ name) :
    filepath.Split (d ++ '/' :: name) = (d ++ ['/'], name) := by
  unfold filepath.Split
  rw [splitPoint_append d name hn]
  have h : d ++ '/' :: name = (d ++ ['/']) ++ name := by simp
  have hl : (d ++ ['/']).length = d.length + 1 := by simp
  rw [h, ← hl, List.take_left, List.drop_left]

theorem Split_noSep (p : GoString) (hn : '/' ∉ p) : filepath.Split p = ([], p) := by
  unfold filepath.Split filepath.splitPoint
  have : p.reverse.dropWhile (fun c => !filepath.IsPathSeparator c) = [] := by
    have h := dropWhile_append_all (fun c => !filepath.IsPathSeparator c) p.reverse [] (by
      intro x hx
      have hx' : x ∈ p := List.mem_reverse.1 hx
      have : x ≠ '/' := fun h => hn (h ▸ hx')
      simp [filepath.IsPathSeparator, this])
    simpa using h
  rw [this]
  simp

theorem exists_last_sep : ∀ (p : GoString), '/' ∈ p →
    ∃ d name, p = d ++ '/' :: name ∧ '/' ∉ name := by
  intro p
  induction p with
  | nil => intro h; cases h
  | cons c cs ih =>
    intro h
    by_cases hcs : '/' ∈ cs
    · obtain ⟨d, name, hp, hn⟩ := ih hcs
      exact ⟨c :: d, name, by rw [hp]; rfl, hn⟩
    · have hc : c = '/' := by
        rcases List.mem_cons.1 h with h | h
        · exact h.symm
        · exact absurd h hcs
      exact ⟨[], cs, by rw [hc]; rfl, hcs⟩

/-- Every string splits at its last separator: into a segment without
separator and whatever precedes it, which is empty or ends in a separator. -/
theorem exists_segments (p : GoString) :
    ∃ d0 seg, p = d0 ++ seg ∧ '/' ∉ seg ∧ (d0 = [] ∨ ∃ d1, d0 = d1 ++ ['/']) := by
  by_cases h : '/' ∈ p
  · obtain ⟨d, name, hp, hn⟩ := exists_last_sep p h
    exact ⟨d ++ ['/'], name, by simp [hp], hn, Or.inr ⟨d, rfl⟩⟩
  · exact ⟨[], p, rfl, h, Or.inl rfl⟩

theorem Split_segments (d0 seg : GoString) (hseg : '/' ∉ seg)
    (hd0 : d0 = [] ∨ ∃ d1, d0 = d1 ++ ['/']) : filepath.Split (d0 ++ seg) = (d0, seg) := by
  rcases hd0 with h | ⟨d1, h⟩
  · subst h; simpa using Split_noSep seg hseg
  · subst h
    have := Split_append d1 seg hseg
    simpa using this

/-! ## The filter -/

theorem firstAt_index_ne (path pre suf : GoString) (h : FirstAt anchor path pre suf) :
    ¬ strings.Index path anchor = -1 := by
  rw [(Index_of_firstAt anchor path pre suf h).1]
  omega

theorem dropLast?_append (d : GoString) : dropLast? (d ++ ['/']) = some d := by
  unfold dropLast?
  simp

theorem visit_decomp (env : Env) (path : GoString) (err : Option GoError) (s : State)
    (pre d name d0 seg : GoString)
    (hf : FirstAt anchor path pre (d ++ '/' :: name)) (hn : '/' ∉ name)
    (hd : d = d0 ++ seg) (hseg : '/' ∉ seg) (hd0 : d0 = [] ∨ ∃ d1, d0 = d1 ++ ['/']) :
    visit env path err s =
      if passes name seg then instrument env (d ++ '/' :: name) d seg s
      else Outcome.ret none s := by
  have h1 := firstAt_index_ne path pre _ hf
  have h2 := (Index_of_firstAt anchor path pre _ hf).2
  have h3 := Split_append d name hn
  have h4 : filepath.Split d = (d0, seg) := by rw [hd]; exact Split_segments d0 seg hseg hd0
  unfold visit passes
  simp only [h1, if_false, h2, h3, dropLast?_append, h4]
  generalize strings.HasSuffix name ".go".toList = a
  generalize strings.HasSuffix name "_test.go".toList = b
  generalize (decide (seg = "gen".toList) || decide (seg = "testdata".toList)
    || decide (seg = "builtin".toList) || decide (seg = "test".toList)
    || decide (seg = "compile".toList)) = c
  by_cases c3 : name = "mkbuiltin.go".toList <;>
  by_cases c4 : name = "builtin.go".toList <;>
  cases a <;> cases b <;> cases c <;> simp_all

theorem accept?_decomp (path pre d name d0 seg : GoString)
    (hf : FirstAt anchor path pre (d ++ '/' :: name)) (hn : '/' ∉ name)
    (hd : d = d0 ++ seg) (hseg : '/' ∉ seg) (hd0 : d0 = [] ∨ ∃ d1, d0 = d1 ++ ['/']) :
    accept? path = if passes name seg then some (d ++ '/' :: name, d, seg) else none := by
  have h1 := firstAt_index_ne path pre _ hf
  have h2 := (Index_of_firstAt anchor path pre _ hf).2
  have h3 := Split_append d name hn
  have h4 : filepath.Split d = (d0, seg) := by rw [hd]; exact Split_segments d0 seg hseg hd0
  have h5 : (d ++ ['/']).take ((d ++ ['/']).length - 1) = d := by simp
  unfold accept? passes
  simp only [h1, if_false, h2, h3, h5, h4]
  generalize strings.HasSuffix name ".go".toList = a
  generalize strings.HasSuffix name "_test.go".toList = b
  generalize (decide (seg = "gen".toList) || decide (seg = "testdata".toList)
    || decide (seg = "builtin".toList) || decide (seg = "test".toList)
    || decide (seg = "compile".toList)) = c
  by_cases c3 : name = "mkbuiltin.go".toList <;>
  by_cases c4 : name = "builtin.go".toList <;>
  cases a <;> cases b <;> cases c <;> simp_all

theorem visit_no_anchor (env : Env) (path : GoString) (err : Option GoError) (s : State)
    (h : ¬ anchor <:+: path) : visit env path err s = Outcome.ret none s := by
  have h1 := (Index_eq_neg_one_iff path anchor).2 h
  unfold visit
  simp only [h1, if_true]

theorem accept?_no_anchor (path : GoString) (h : ¬ anchor <:+: path) : accept? path = none := by
  have h1 := (Index_eq_neg_one_iff path anchor).2 h
  unfold accept?
  simp only [h1, if_true]

theorem anchor_sep_mem (suf : GoString) (h : anchor <+: suf) : '/' ∈ suf := by
  obtain ⟨t, ht⟩ := h
  rw [← ht]
  exact List.mem_append_left _ (by decide)

/-- Every path that contains the anchor decomposes the way the filter reads it. -/
theorem exists_decomp (path : GoString) (h : anchor <:+: path) :
    ∃ pre d name d0 seg, FirstAt anchor path pre (d ++ '/' :: name) ∧ '/' ∉ name ∧
      d = d0 ++ seg ∧ '/' ∉ seg ∧ (d0 = [] ∨ ∃ d1, d0 = d1 ++ ['/']) := by
  obtain ⟨pre, suf, hf⟩ := (infix_iff_firstAt anchor path).1 h
  obtain ⟨d, name, hsuf, hn⟩ := exists_last_sep suf (anchor_sep_mem suf hf.2.1)
  obtain ⟨d0, seg, hd, hseg, hd0⟩ := exists_segments d
  exact ⟨pre, d, name, d0, seg, hsuf ▸ hf, hn, hd, hseg, hd0⟩

/-- The function `visit` is its filter followed by the instrumentation; in
particular the slice `dir[:len(dir)-1]` never fails. -/
theorem visit_eq_accept (env : Env) (path : GoString) (err : Option GoError) (s : State) :
    visit env path err s =
      match accept? path with
      | none => Outcome.ret none s
      | some (rel, dir, pkg) => instrument env rel dir pkg s := by
  by_cases h : anchor <:+: path
  · obtain ⟨pre, d, name, d0, seg, hf, hn, hd, hseg, hd0⟩ := exists_decomp path h
    rw [visit_decomp env path err s pre d name d0 seg hf hn hd hseg hd0,
      accept?_decomp path pre d name d0 seg hf hn hd hseg hd0]
    cases passes name seg <;> rfl
  · rw [visit_no_anchor env path err s h, accept?_no_anchor path h]

theorem passes_iff (name seg : GoString) :
    passes name seg = true ↔
      (".go".toList <:+ name ∧ ¬ "_test.go".toList <:+ name ∧
        name ≠ "mkbuiltin.go".toList ∧ name ≠ "builtin.go".toList ∧
        seg ≠ "gen".toList ∧ seg ≠ "testdata".toList ∧ seg ≠ "builtin".toList ∧
        seg ≠ "test".toList ∧ seg ≠ "compile".toList) := by
  unfold passes
  rw [← HasSuffix_iff, ← HasSuffix_iff]
  generalize strings.HasSuffix name ".go".toList = a
  generalize strings.HasSuffix name "_test.go".toList = b
  cases a <;> cases b <;> simp
  tauto

theorem eligible_iff_accept (path : GoString) : Eligible path ↔ (accept? path).isSome = true := by
  constructor
  · rintro ⟨pre, d, name, d0, seg, hf, hn, hd, hseg, hd0, hrest⟩
    rw [accept?_decomp path pre d name d0 seg hf hn hd hseg hd0, (passes_iff name seg).2 hrest]
    rfl
  · intro h
    by_cases ha : anchor <:+: path
    · obtain ⟨pre, d, name, d0, seg, hf, hn, hd, hseg, hd0⟩ := exists_decomp path ha
      rw [accept?_decomp path pre d name d0 seg hf hn hd hseg hd0] at h
      cases hp : passes name seg with
      | false => rw [hp] at h; cases h
      | true => exact ⟨pre, d, name, d0, seg, hf, hn, hd, hseg, hd0, (passes_iff name seg).1 hp⟩
    · rw [accept?_no_anchor path ha] at h
      cases h

theorem instrument_execs (env : Env) (rel dir pkg : GoString) (s : State) :
    (instrument env rel dir pkg s).state.execs =
      s.execs ++ [["go".toList, "tool".toList, "cover".toList, "-mode=set".toList,
        "-var".toList, varName s.n, rel]] := by
  unfold instrument
  cases hp : mapGet false s.pkgs dir <;> cases he : (env.cover (varName s.n) rel).err <;>
    cases hw : env.writeErr rel <;> simp [hp, he, hw, Outcome.state]

/-- C1. `visit` instruments a path exactly when the path is eligible in the
words of the specification, whatever the incoming error and the accumulated
state are; every other path is rejected, that is `visit` returns nil and leaves
the state alone. -/
theorem visit_instruments_iff_eligible (env : Env) (path : GoString) (err : Option GoError)
    (s : State) :
    (RunsTool (visit env path err s) s ↔ Eligible path) ∧
      (¬ Eligible path → visit env path err s = Outcome.ret none s) := by
  rw [eligible_iff_accept, visit_eq_accept]
  cases h : accept? path with
  | none => simp [RunsTool, Outcome.state]
  | some t =>
    obtain ⟨rel, dir, pkg⟩ := t
    simp [RunsTool, instrument_execs]


/-! ## Maps -/

theorem mapGet_mapSet {V : Type} (zero : V) (m : GoMap V) (k k' : GoString) (v : V) :
    mapGet zero (mapSet m k v) k' = if k = k' then v else mapGet zero m k' := by
  induction m with
  | nil =>
    simp only [mapSet, mapGet]
  | cons e rest ih =>
    obtain ⟨a, w⟩ := e
    by_cases h : a = k
    · subst h
      by_cases h' : a = k'
      · simp [mapSet, mapGet, h']
      · simp [mapSet, mapGet, h']
    · by_cases h' : a = k'
      · subst h'
        have hne : ¬ k = a := fun e => h e.symm
        simp [mapSet, mapGet, h, hne]
      · simp [mapSet, mapGet, h, h', ih]

/-! ## The registry -/

theorem mkBlock_some (pos numStmts : Slice Nat) (i : Nat)
    (hp : 3 * i + 2 < pos.len) (hs : i < numStmts.len) :
    ∃ l0 l1 w st, pos.at? (3 * i) = some l0 ∧ pos.at? (3 * i + 1) = some l1 ∧
      pos.at? (3 * i + 2) = some w ∧ numStmts.at? i = some st ∧
      mkBlock pos numStmts i =
        some { Line0 := l0, Col0 := toUint16 w, Line1 := l1, Col1 := toUint16 (w >>> 16),
               Stmts := st } := by
  cases pos with
  | none => simp [Slice.len] at hp
  | some p =>
    cases numStmts with
    | none => simp [Slice.len] at hs
    | some n =>
      simp only [Slice.len] at hp hs
      have h0 : 3 * i < p.length := by omega
      have h1 : 3 * i + 1 < p.length := by omega
      refine ⟨p[3 * i], p[3 * i + 1], p[3 * i + 2], n[i], ?_, ?_, ?_, ?_, ?_⟩
      · simp [Slice.at?, h0]
      · simp [Slice.at?, h1]
      · simp [Slice.at?, hp]
      · simp [Slice.at?, hs]
      · simp [mkBlock, Slice.at?, h0, h1, hp, hs]

theorem fillBlocks_some (pos numStmts : Slice Nat) : ∀ (k i : Nat),
    3 * (i + k) ≤ pos.len → i + k ≤ numStmts.len →
    ∃ bs, fillBlocks pos numStmts i k = some bs ∧ bs.length = k ∧
      ∀ j, j < k → bs[j]? = mkBlock pos numStmts (i + j) := by
  intro k
  induction k with
  | zero =>
    intro i _ _
    exact ⟨[], rfl, rfl, fun j hj => absurd hj (Nat.not_lt_zero j)⟩
  | succ k ih =>
    intro i hp hs
    obtain ⟨l0, l1, w, st, -, -, -, -, hb⟩ := mkBlock_some pos numStmts i (by omega) (by omega)
    obtain ⟨bs, hbs, hlen, hget⟩ := ih (i + 1) (by omega) (by omega)
    refine ⟨{ Line0 := l0, Col0 := toUint16 w, Line1 := l1, Col1 := toUint16 (w >>> 16),
               Stmts := st } :: bs, ?_, by simp [hlen], ?_⟩
    · simp only [fillBlocks, hb, hbs]
    · intro j hj
      cases j with
      | zero => simpa using hb.symm
      | succ j =>
        have := hget j (by omega)
        simpa [Nat.add_assoc, Nat.add_comm 1 j] using this

/-- C3. `coverRegisterFile` panics exactly when the size check fails, for every
triple and every registry; the panic then carries the message
`coverage: mismatched sizes` and both maps are as they were before the call. -/
theorem coverRegisterFile_panics_iff (fileName : GoString) (counter pos numStmts : Slice Nat)
    (r : Registry) :
    ((∃ msg r1, coverRegisterFile fileName counter pos numStmts r = RegOutcome.panic msg r1) ↔
        (3 * counter.len ≠ pos.len ∨ counter.len ≠ numStmts.len)) ∧
      (∀ msg r1, coverRegisterFile fileName counter pos numStmts r = RegOutcome.panic msg r1 →
        msg = mismatched ∧ r1 = r) := by
  by_cases hsz : 3 * counter.len ≠ pos.len ∨ counter.len ≠ numStmts.len
  · have h : coverRegisterFile fileName counter pos numStmts r = RegOutcome.panic mismatched r := by
      unfold coverRegisterFile
      rw [if_pos hsz]
    rw [h]
    refine ⟨⟨fun _ => hsz, fun _ => ⟨_, _, rfl⟩⟩, ?_⟩
    intro msg r1 he
    cases he
    exact ⟨rfl, rfl⟩
  · have hsz' : 3 * counter.len = pos.len ∧ counter.len = numStmts.len := by
      constructor <;> by_contra hc
      · exact hsz (Or.inl hc)
      · exact hsz (Or.inr hc)
    obtain ⟨bs, hbs, -, -⟩ := fillBlocks_some pos numStmts counter.len 0
      (by omega) (by omega)
    have h : ∃ r1, coverRegisterFile fileName counter pos numStmts r = RegOutcome.ok r1 := by
      unfold coverRegisterFile
      rw [if_neg hsz]
      by_cases hreg : mapGet none r.coverCounters fileName ≠ none
      · rw [if_pos hreg]; exact ⟨_, rfl⟩
      · rw [if_neg hreg]
        simp only [hbs]
        exact ⟨_, rfl⟩
    obtain ⟨r1, h1⟩ := h
    rw [h1]
    refine ⟨⟨?_, fun hc => absurd hc hsz⟩, ?_⟩
    · rintro ⟨msg, r2, he⟩; cases he
    · intro msg r2 he; cases he


theorem coverRegisterFile_registered (fileName : GoString) (counter pos numStmts : Slice Nat)
    (r : Registry) (hsz : ¬ (3 * counter.len ≠ pos.len ∨ counter.len ≠ numStmts.len))
    (hreg : mapGet none r.coverCounters fileName ≠ none) :
    coverRegisterFile fileName counter pos numStmts r = RegOutcome.ok r := by
  unfold coverRegisterFile
  rw [if_neg hsz, if_pos hreg]

theorem coverRegisterFile_fresh (fileName : GoString) (counter pos numStmts : Slice Nat)
    (r : Registry) (h3 : 3 * counter.len = pos.len) (hn : counter.len = numStmts.len)
    (hnew : mapGet none r.coverCounters fileName = none) :
    ∃ bs, fillBlocks pos numStmts 0 counter.len = some bs ∧ bs.length = counter.len ∧
      (∀ j, j < counter.len → bs[j]? = mkBlock pos numStmts j) ∧
      coverRegisterFile fileName counter pos numStmts r =
        RegOutcome.ok { coverCounters := mapSet r.coverCounters fileName counter,
                        coverBlocks := mapSet r.coverBlocks fileName (some bs) } := by
  obtain ⟨bs, hbs, hlen, hget⟩ := fillBlocks_some pos numStmts counter.len 0 (by omega) (by omega)
  refine ⟨bs, hbs, hlen, fun j hj => by simpa using hget j hj, ?_⟩
  have hsz : ¬ (3 * counter.len ≠ pos.len ∨ counter.len ≠ numStmts.len) := by
    rintro (h | h)
    · exact h h3
    · exact h hn
  unfold coverRegisterFile
  rw [if_neg hsz, if_neg (by simpa using hnew)]
  simp only [hbs]

/-- After a call that returns, a file that was registered with a non-nil
counter slice, by this call or before it, reads back non-nil. -/
theorem coverRegisterFile_nonnil (fileName : GoString) (counter pos numStmts : Slice Nat)
    (r r1 : Registry)
    (h : coverRegisterFile fileName counter pos numStmts r = RegOutcome.ok r1)
    (hc : counter ≠ none ∨ mapGet none r.coverCounters fileName ≠ none) :
    mapGet none r1.coverCounters fileName ≠ none := by
  by_cases hsz : 3 * counter.len ≠ pos.len ∨ counter.len ≠ numStmts.len
  · unfold coverRegisterFile at h
    rw [if_pos hsz] at h
    cases h
  · by_cases hreg : mapGet none r.coverCounters fileName ≠ none
    · rw [coverRegisterFile_registered fileName counter pos numStmts r hsz hreg] at h
      cases h
      exact hreg
    · have hnew : mapGet none r.coverCounters fileName = none := by
        by_contra hne
        exact hreg hne
      have hcn : counter ≠ none := by
        rcases hc with hc | hc
        · exact hc
        · exact absurd hc hreg
      have h3 : 3 * counter.len = pos.len := by
        by_contra hne
        exact hsz (Or.inl hne)
      have hn : counter.len = numStmts.len := by
        by_contra hne
        exact hsz (Or.inr hne)
      obtain ⟨bs, -, -, -, hres⟩ := coverRegisterFile_fresh fileName counter pos numStmts r h3 hn hnew
      rw [hres] at h
      cases h
      simp only [mapGet_mapSet, if_true]
      exact hcn

/-- C2, as amended. When a first call for file `f` returns and its counter
slice is non-nil (or `f` was registered before), a second call for `f` leaves
both maps as the first call left them: it returns normally when its own triple
passes the size check, and panics with the size message when it does not. -/
theorem coverRegisterFile_twice (f : GoString) (c1 p1 s1 c2 p2 s2 : Slice Nat) (r r1 : Registry)
    (h1 : coverRegisterFile f c1 p1 s1 r = RegOutcome.ok r1)
    (hc : c1 ≠ none ∨ mapGet none r.coverCounters f ≠ none) :
    coverRegisterFile f c2 p2 s2 r1 =
      if 3 * c2.len ≠ p2.len ∨ c2.len ≠ s2.len then RegOutcome.panic mismatched r1
      else RegOutcome.ok r1 := by
  have hreg := coverRegisterFile_nonnil f c1 p1 s1 r r1 h1 hc
  by_cases hsz : 3 * c2.len ≠ p2.len ∨ c2.len ≠ s2.len
  · rw [if_pos hsz]
    unfold coverRegisterFile
    rw [if_pos hsz]
  · rw [if_neg hsz]
    exact coverRegisterFile_registered f c2 p2 s2 r1 hsz hreg

/-- The instance of `coverRegisterFile_twice` at a one-statement file that is
registered a second time with a two-statement triple. -/
theorem coverRegisterFile_twice_witness :
    coverRegisterFile "a.go".toList (some [0]) (some [1, 2, 3]) (some [1]) Registry.empty =
        RegOutcome.ok sampleRegistry ∧
      ((some [0] : Slice Nat) ≠ none ∨ mapGet none Registry.empty.coverCounters "a.go".toList ≠ none) ∧
      coverRegisterFile "a.go".toList (some [5, 6]) (some [1, 2, 3, 4, 5, 6]) (some [1, 1])
          sampleRegistry =
        if 3 * Slice.len (some [5, 6]) ≠ Slice.len (some [1, 2, 3, 4, 5, 6])
            ∨ Slice.len (some [5, 6]) ≠ Slice.len (some [1, 1]) then
          RegOutcome.panic mismatched sampleRegistry
        else RegOutcome.ok sampleRegistry :=
  ⟨by decide, Or.inl (by decide),
    coverRegisterFile_twice "a.go".toList (some [0]) (some [1, 2, 3]) (some [1])
      (some [5, 6]) (some [1, 2, 3, 4, 5, 6]) (some [1, 1]) Registry.empty sampleRegistry
      (by decide) (Or.inl (by decide))⟩

/-- C2 as stated fails twice over. A second call whose triple fails the size
check panics instead of being a no-op; and after a first call with a nil
counter slice the file does not count as registered, so a second call
overwrites both maps. -/
theorem coverRegisterFile_twice_counterexample :
    (coverRegisterFile "a.go".toList (some [0]) (some [1, 2, 3]) (some [1]) Registry.empty =
        RegOutcome.ok sampleRegistry ∧
      coverRegisterFile "a.go".toList (some [0]) (some []) (some []) sampleRegistry =
        RegOutcome.panic mismatched sampleRegistry) ∧
    (coverRegisterFile "a.go".toList none none none Registry.empty =
        RegOutcome.ok
          { coverCounters := [("a.go".toList, none)],
            coverBlocks := [("a.go".toList, some [])] } ∧
      coverRegisterFile "a.go".toList (some [0]) (some [1, 2, 3]) (some [1])
          { coverCounters := [("a.go".toList, none)],
            coverBlocks := [("a.go".toList, some [])] } =
        RegOutcome.ok sampleRegistry) := by
  decide


theorem toUint16_eq_and (w : Nat) : toUint16 w = w &&& 0xFFFF := by
  unfold toUint16
  exact (Nat.and_pow_two_sub_one_eq_mod w 16).symm

theorem toUint16_shift (w : Nat) (hw : w < 2 ^ 32) : toUint16 (w >>> 16) = w >>> 16 := by
  unfold toUint16
  rw [Nat.shiftRight_eq_div_pow]
  apply Nat.mod_eq_of_lt
  omega

theorem at?_mem {α : Type} (s : Slice α) (i : Nat) (x : α) (h : s.at? i = some x) :
    x ∈ s.getD [] := by
  cases s with
  | none => cases h
  | some l => exact List.getElem?_mem h

/-- C6. Registering a file that has no counters yet, with a triple that passes
the size check and 32-bit position words, returns normally; afterwards the
file's counter slice is `counter` and its block list has `len(counter)` blocks,
block `i` holding `pos[3i]`, `pos[3i+1]`, the low and the high half of
`pos[3i+2]`, and `numStmts[i]`. -/
theorem coverRegisterFile_decodes (fileName : GoString) (counter pos numStmts : Slice Nat)
    (r : Registry) (hnew : mapGet none r.coverCounters fileName = none)
    (h3 : 3 * counter.len = pos.len) (hn : counter.len = numStmts.len)
    (h32 : ∀ w ∈ pos.getD [], w < 2 ^ 32) :
    ∃ r1 blocks, coverRegisterFile fileName counter pos numStmts r = RegOutcome.ok r1 ∧
      mapGet none r1.coverCounters fileName = counter ∧
      mapGet none r1.coverBlocks fileName = some blocks ∧
      blocks.length = counter.len ∧
      ∀ i, i < counter.len → ∃ b l0 l1 w st,
        blocks[i]? = some b ∧ pos.at? (3 * i) = some l0 ∧ pos.at? (3 * i + 1) = some l1 ∧
        pos.at? (3 * i + 2) = some w ∧ numStmts.at? i = some st ∧
        b.Line0 = l0 ∧ b.Line1 = l1 ∧ b.Col0 = w &&& 0xFFFF ∧ b.Col1 = w >>> 16 ∧
        b.Stmts = st := by
  obtain ⟨bs, -, hlen, hget, hres⟩ :=
    coverRegisterFile_fresh fileName counter pos numStmts r h3 hn hnew
  refine ⟨_, bs, hres, ?_, ?_, hlen, ?_⟩
  · simp only [mapGet_mapSet, if_true]
  · simp only [mapGet_mapSet, if_true]
  · intro i hi
    obtain ⟨l0, l1, w, st, e0, e1, e2, e3, hb⟩ :=
      mkBlock_some pos numStmts i (by omega) (by omega)
    refine ⟨_, l0, l1, w, st, (hget i hi).trans hb, e0, e1, e2, e3, rfl, rfl, ?_, ?_, rfl⟩
    · exact toUint16_eq_and w
    · exact toUint16_shift w (h32 w (at?_mem pos _ w e2))

/-- The instance of `coverRegisterFile_decodes` at a file with one statement
that spans line 10, column 3 to line 12, column 7. -/
theorem coverRegisterFile_decodes_witness :
    mapGet none Registry.empty.coverCounters "a.go".toList = none ∧
      3 * Slice.len (some [0]) = Slice.len (some [10, 12, 7 * 65536 + 3]) ∧
      Slice.len (some [0]) = Slice.len (some [2]) ∧
      (∀ w ∈ (some [10, 12, 7 * 65536 + 3] : Slice Nat).getD [], w < 2 ^ 32) ∧
      ∃ r1 blocks,
        coverRegisterFile "a.go".toList (some [0]) (some [10, 12, 7 * 65536 + 3]) (some [2])
          Registry.empty = RegOutcome.ok r1 ∧
        mapGet none r1.coverCounters "a.go".toList = some [0] ∧
        mapGet none r1.coverBlocks "a.go".toList = some blocks ∧
        blocks.length = Slice.len (some [0]) ∧
        ∀ i, i < Slice.len (some [0]) → ∃ b l0 l1 w st,
          blocks[i]? = some b ∧
          Slice.at? (some [10, 12, 7 * 65536 + 3]) (3 * i) = some l0 ∧
          Slice.at? (some [10, 12, 7 * 65536 + 3]) (3 * i + 1) = some l1 ∧
          Slice.at? (some [10, 12, 7 * 65536 + 3]) (3 * i + 2) = some w ∧
          Slice.at? (some [2]) i = some st ∧
          b.Line0 = l0 ∧ b.Line1 = l1 ∧ b.Col0 = w &&& 0xFFFF ∧ b.Col1 = w >>> 16 ∧
          b.Stmts = st :=
  ⟨by decide, by decide, by decide, by decide,
    coverRegisterFile_decodes "a.go".toList (some [0]) (some [10, 12, 7 * 65536 + 3]) (some [2])
      Registry.empty (by decide) (by decide) (by decide) (by decide)⟩


/-! ## The walk -/

theorem instrument_success (env : Env) (rel dir pkg : GoString) (s : State)
    (h : (env.cover (varName s.n) rel).err = none) :
    ∃ s1, instrument env rel dir pkg s = Outcome.ret none s1 ∧ s1.n = s.n + 1 ∧
      s1.execs = s.execs ++ [toolArgv s.n rel] ∧
      s1.initText = s.initText ++ registerLine rel pkg s.n := by
  unfold instrument
  cases hp : mapGet false s.pkgs dir <;> cases hw : env.writeErr rel <;>
    simp only [hp, hw, Bool.not_false, Bool.not_true, if_true, if_false, h, Bool.false_eq_true] <;>
    exact ⟨_, rfl, rfl, rfl, rfl⟩

theorem walk_ids_aux (env : Env) : ∀ (entries : List WalkEntry) (s : State),
    ToolSucceeds env entries →
    ∃ s1, Walk (visit env) entries s = Outcome.ret none s1 ∧
      s1.n = s.n + (acceptedPaths entries).length ∧
      s1.execs.length = s.execs.length + (acceptedPaths entries).length ∧
      (∀ j, j < s.execs.length → s1.execs[j]? = s.execs[j]?) ∧
      ∀ k rel, (acceptedPaths entries)[k]? = some rel →
        s1.execs[s.execs.length + k]? = some (toolArgv (s.n + k) rel) := by
  intro entries
  induction entries with
  | nil =>
    intro s _
    exact ⟨s, rfl, rfl, rfl, fun _ _ => rfl, fun k rel h => by simp [acceptedPaths] at h⟩
  | cons e rest ih =>
    intro s hok
    have hrest : ToolSucceeds env rest := fun x hx => hok x (List.mem_cons_of_mem _ hx)
    cases hacc : accept? e.path with
    | none =>
      obtain ⟨s1, hw, hn, hl, hold, hk⟩ := ih s hrest
      have hv : visit env e.path e.err s = Outcome.ret none s := by
        rw [visit_eq_accept, hacc]
      refine ⟨s1, ?_, ?_, ?_, hold, ?_⟩
      · simp only [Walk, hv, hw]
      · simpa [acceptedPaths, hacc] using hn
      · simpa [acceptedPaths, hacc] using hl
      · intro k rel h
        apply hk k rel
        simpa [acceptedPaths, hacc] using h
    | some t =>
      obtain ⟨rel, dir, pkg⟩ := t
      have hs := hok e (List.mem_cons_self _ _) (rel, dir, pkg) hacc (varName s.n)
      obtain ⟨s0, hi, hn0, he0, -⟩ := instrument_success env rel dir pkg s hs
      obtain ⟨s1, hw, hn, hl, hold, hk⟩ := ih s0 hrest
      have hv : visit env e.path e.err s = Outcome.ret none s0 := by
        rw [visit_eq_accept, hacc]
        exact hi
      have hlen0 : s0.execs.length = s.execs.length + 1 := by simp [he0]
      have hap : acceptedPaths (e :: rest) = rel :: acceptedPaths rest := by
        simp [acceptedPaths, hacc]
      refine ⟨s1, ?_, ?_, ?_, ?_, ?_⟩
      · simp only [Walk, hv, hw]
      · rw [hap, hn, hn0]; simp only [List.length_cons]; omega
      · rw [hap, hl, hlen0]; simp only [List.length_cons]; omega
      · intro j hj
        rw [hold j (by omega), he0, List.getElem?_append_left hj]
      · intro k rel' h
        rw [hap] at h
        cases k with
        | zero =>
          simp only [List.getElem?_cons_zero, Option.some.injEq] at h
          subst h
          rw [Nat.add_zero, Nat.add_zero, hold _ (by omega), he0]
          simp
        | succ k =>
          simp only [List.getElem?_cons_succ] at h
          have := hk k rel' h
          rw [hlen0, hn0] at this
          rw [show s.execs.length + (k + 1) = s.execs.length + 1 + k by omega,
            show s.n + (k + 1) = s.n + 1 + k by omega]
          exact this

/-- C4. When the tool succeeds on every accepted file, a walk from the initial
state returns nil, ends with `n` equal to the number `m` of accepted files, has
run the tool exactly `m` times, and the `k`-th run (from 0) is on the `k`-th
accepted file under the variable name `GoCover_k`. Rejected paths take no id. -/
theorem walk_assigns_ids (env : Env) (entries : List WalkEntry)
    (hok : ToolSucceeds env entries) :
    ∃ s, Walk (visit env) entries State.init = Outcome.ret none s ∧
      s.n = (acceptedPaths entries).length ∧
      s.execs.length = (acceptedPaths entries).length ∧
      ∀ k rel, (acceptedPaths entries)[k]? = some rel →
        s.execs[k]? = some ["go".toList, "tool".toList, "cover".toList, "-mode=set".toList,
          "-var".toList, "GoCover_".toList ++ fmtD k, rel] := by
  obtain ⟨s, hw, hn, hl, -, hk⟩ := walk_ids_aux env entries State.init hok
  refine ⟨s, hw, by simpa [State.init] using hn, by simpa [State.init] using hl, ?_⟩
  intro k rel h
  have := hk k rel h
  simpa [State.init, toolArgv] using this

/-- The instance of `walk_assigns_ids` at the sample walk. -/
theorem walk_assigns_ids_witness :
    ToolSucceeds sampleEnv sampleEntries ∧
      ∃ s, Walk (visit sampleEnv) sampleEntries State.init = Outcome.ret none s ∧
        s.n = (acceptedPaths sampleEntries).length ∧
        s.execs.length = (acceptedPaths sampleEntries).length ∧
        ∀ k rel, (acceptedPaths sampleEntries)[k]? = some rel →
          s.execs[k]? = some ["go".toList, "tool".toList, "cover".toList, "-mode=set".toList,
            "-var".toList, "GoCover_".toList ++ fmtD k, rel] :=
  ⟨fun _ _ _ _ _ => rfl, walk_assigns_ids sampleEnv sampleEntries (fun _ _ _ _ _ => rfl)⟩

theorem instrument_imports (env : Env) (rel dir pkg : GoString) (s : State) :
    (instrument env rel dir pkg s).state.importText =
        (if mapGet false s.pkgs dir then s.importText else s.importText ++ importLine dir) ∧
      (instrument env rel dir pkg s).state.pkgs =
        (if mapGet false s.pkgs dir then s.pkgs else mapSet s.pkgs dir true) := by
  unfold instrument
  cases hp : mapGet false s.pkgs dir <;> cases he : (env.cover (varName s.n) rel).err <;>
    cases hw : env.writeErr rel <;> simp [hp, he, hw, Outcome.state]

theorem firstOccurrences_snoc (l : List GoString) (d : GoString) :
    firstOccurrences (l ++ [d]) =
      if d ∈ l then firstOccurrences l else firstOccurrences l ++ [d] := by
  unfold firstOccurrences
  rw [List.reverse_append, List.reverse_singleton, List.singleton_append]
  by_cases h : d ∈ l
  · rw [if_pos h, List.dedup_cons_of_mem (List.mem_reverse.2 h)]
  · rw [if_neg h, List.dedup_cons_of_not_mem (fun hc => h (List.mem_reverse.1 hc))]
    simp


theorem acceptedDirs_cons (e : WalkEntry) (rest : List WalkEntry) :
    acceptedDirs (e :: rest) = acceptedDirs [e] ++ acceptedDirs rest := by
  unfold acceptedDirs
  cases h : accept? e.path <;> simp [List.filterMap_cons, h]

theorem visit_imports_step (env : Env) (e : WalkEntry) (s : State) (dirs : List GoString)
    (h : ImportsRecorded dirs s) :
    ImportsRecorded (dirs ++ acceptedDirs [e]) (visit env e.path e.err s).state := by
  rw [visit_eq_accept]
  cases hacc : accept? e.path with
  | none =>
    have : acceptedDirs [e] = [] := by simp [acceptedDirs, hacc]
    rw [this, List.append_nil]
    exact h
  | some t =>
    obtain ⟨rel, dir, pkg⟩ := t
    have hd : acceptedDirs [e] = [dir] := by simp [acceptedDirs, hacc]
    rw [hd]
    obtain ⟨htext, hpk⟩ := h
    obtain ⟨h1, h2⟩ := instrument_imports env rel dir pkg s
    simp only []
    by_cases hin : dir ∈ dirs
    · have hget : mapGet false s.pkgs dir = true := (hpk dir).2 hin
      rw [hget, if_pos rfl] at h1 h2
      refine ⟨?_, ?_⟩
      · rw [h1, htext, firstOccurrences_snoc, if_pos hin]
      · intro d
        rw [h2, hpk d]
        constructor
        · exact fun hm => List.mem_append_left _ hm
        · intro hm
          rcases List.mem_append.1 hm with hm | hm
          · exact hm
          · rw [List.mem_singleton.1 hm]; exact hin
    · have hget : mapGet false s.pkgs dir = false := by
        cases hg : mapGet false s.pkgs dir with
        | false => rfl
        | true => exact absurd ((hpk dir).1 hg) hin
      rw [hget] at h1 h2
      simp only [Bool.false_eq_true, if_false] at h1 h2
      refine ⟨?_, ?_⟩
      · rw [h1, htext, firstOccurrences_snoc, if_neg hin]
        simp [List.flatMap_append]
      · intro d
        rw [h2, mapGet_mapSet]
        by_cases hdd : dir = d
        · subst hdd
          simp
        · rw [if_neg hdd, hpk d]
          constructor
          · exact fun hm => List.mem_append_left _ hm
          · intro hm
            rcases List.mem_append.1 hm with hm | hm
            · exact hm
            · exact absurd (List.mem_singleton.1 hm).symm hdd

theorem walk_imports_aux (env : Env) : ∀ (entries : List WalkEntry) (dirs : List GoString)
    (s : State), ImportsRecorded dirs s →
    ImportsRecorded (dirs ++ acceptedDirs (visited (visit env) entries s))
      (Walk (visit env) entries s).state := by
  intro entries
  induction entries with
  | nil =>
    intro dirs s h
    simpa [visited, acceptedDirs, Walk, Outcome.state] using h
  | cons e rest ih =>
    intro dirs s h
    have hstep := visit_imports_step env e s dirs h
    cases hv : visit env e.path e.err s with
    | ret err s1 =>
      cases err with
      | none =>
        rw [hv] at hstep
        have := ih (dirs ++ acceptedDirs [e]) s1 hstep
        simp only [Walk, visited, hv]
        rw [acceptedDirs_cons, ← List.append_assoc]
        exact this
      | some x =>
        rw [hv] at hstep
        simp only [Walk, visited, hv]
        exact hstep
    | panic m s1 =>
      rw [hv] at hstep
      simp only [Walk, visited, hv]
      exact hstep

theorem visited_of_success (env : Env) : ∀ (entries : List WalkEntry) (s : State),
    ToolSucceeds env entries → visited (visit env) entries s = entries := by
  intro entries
  induction entries with
  | nil => intro s _; rfl
  | cons e rest ih =>
    intro s hok
    have hrest : ToolSucceeds env rest := fun x hx => hok x (List.mem_cons_of_mem _ hx)
    have hv : ∃ s1, visit env e.path e.err s = Outcome.ret none s1 := by
      rw [visit_eq_accept]
      cases hacc : accept? e.path with
      | none => exact ⟨s, rfl⟩
      | some t =>
        obtain ⟨rel, dir, pkg⟩ := t
        have hs := hok e (List.mem_cons_self _ _) (rel, dir, pkg) hacc (varName s.n)
        obtain ⟨s0, hi, -⟩ := instrument_success env rel dir pkg s hs
        exact ⟨s0, hi⟩
    obtain ⟨s1, hv⟩ := hv
    simp only [visited, hv, ih s1 hrest]

/-- C5. From the initial state, a walk leaves in `importText` exactly one line
`\t"<dir>"\n` for each distinct directory of an accepted file among the entries
it visited, in the order of first acceptance, and `pkgs[dir]` is true exactly
for those directories. The visited entries are all the entries when the tool
succeeds on every accepted file. -/
theorem walk_imports (env : Env) (entries : List WalkEntry) :
    (Walk (visit env) entries State.init).state.importText =
        (firstOccurrences (acceptedDirs (visited (visit env) entries State.init))).flatMap
          (fun dir => "\t\"".toList ++ dir ++ "\"\n".toList) ∧
      (firstOccurrences (acceptedDirs (visited (visit env) entries State.init))).Nodup ∧
      (∀ d, d ∈ firstOccurrences (acceptedDirs (visited (visit env) entries State.init)) ↔
        d ∈ acceptedDirs (visited (visit env) entries State.init)) ∧
      (∀ d, mapGet false (Walk (visit env) entries State.init).state.pkgs d = true ↔
        d ∈ acceptedDirs (visited (visit env) entries State.init)) ∧
      (ToolSucceeds env entries → visited (visit env) entries State.init = entries) := by
  have h0 : ImportsRecorded [] State.init := by
    refine ⟨rfl, ?_⟩
    intro d
    simp [State.init, mapGet]
  have h := walk_imports_aux env entries [] State.init h0
  rw [List.nil_append] at h
  refine ⟨h.1, ?_, ?_, h.2, visited_of_success env entries State.init⟩
  · unfold firstOccurrences
    exact List.nodup_reverse.2 (List.nodup_dedup _)
  · intro d
    unfold firstOccurrences
    rw [List.mem_reverse, List.mem_dedup, List.mem_reverse]


/-! ## The report -/

theorem allData_nil : AllData [] := fun _ h => absurd h (List.not_mem_nil _)

theorem allData_append (a b : List GoString) (ha : AllData a) (hb : AllData b) :
    AllData (a ++ b) := by
  intro l hl
  rcases List.mem_append.1 hl with h | h
  · exact ha l h
  · exact hb l h

theorem allData_single (name : GoString) (b : CoverBlock) (count : Nat) :
    AllData [dataLine name b count] := by
  intro l hl
  exact ⟨name, b, count, List.mem_singleton.1 hl⟩

/-- The inner loop only appends data lines, however it ends. -/
theorem reportCounts_appends (os : FlushEnv) (name : GoString) (blocks : Slice CoverBlock) :
    ∀ (counts : List Nat) (i : Nat) (o : Output) (k : Nat) (c : GoString), o.file = some c →
    ∃ ls, (loopOutput (reportCounts os name blocks counts i (o, k))).written = o.written ++ ls ∧
      (loopOutput (reportCounts os name blocks counts i (o, k))).file = some (c ++ ls.flatten) ∧
      AllData ls := by
  intro counts
  induction counts with
  | nil =>
    intro i o k c hf
    exact ⟨[], by simp [reportCounts, loopOutput], by simp [reportCounts, loopOutput, hf],
      allData_nil⟩
  | cons count rest ih =>
    intro i o k c hf
    cases hb : blocks.at? i with
    | none =>
      exact ⟨[], by simp [reportCounts, hb, loopOutput, ReportOutcome.output],
        by simp [reportCounts, hb, loopOutput, ReportOutcome.output, hf], allData_nil⟩
    | some b =>
      cases hw : os.writeErr k with
      | some e =>
        exact ⟨[], by simp [reportCounts, hb, hw, loopOutput, ReportOutcome.output, mustBeNil],
          by simp [reportCounts, hb, hw, loopOutput, ReportOutcome.output, mustBeNil, hf],
          allData_nil⟩
      | none =>
        have hf1 : (o.write (dataLine name b count)).file = some (c ++ dataLine name b count) := by
          simp [Output.write, hf]
        obtain ⟨ls, h1, h2, h3⟩ := ih (i + 1) (o.write (dataLine name b count)) (k + 1) _ hf1
        refine ⟨dataLine name b count :: ls, ?_, ?_, ?_⟩
        · simp only [reportCounts, hb, hw]
          rw [h1]
          simp [Output.write]
        · simp only [reportCounts, hb, hw]
          rw [h2]
          simp
        · exact allData_append [_] ls (allData_single name b count) h3

/-- The outer loop only appends data lines, however it ends. -/
theorem reportFiles_appends (os : FlushEnv) (cover : Cover) :
    ∀ (iter : List (GoString × Slice Nat)) (o : Output) (k : Nat) (c : GoString),
    o.file = some c →
    ∃ ls, (loopOutput (reportFiles os cover iter (o, k))).written = o.written ++ ls ∧
      (loopOutput (reportFiles os cover iter (o, k))).file = some (c ++ ls.flatten) ∧
      AllData ls := by
  intro iter
  induction iter with
  | nil =>
    intro o k c hf
    exact ⟨[], by simp [reportFiles, loopOutput], by simp [reportFiles, loopOutput, hf],
      allData_nil⟩
  | cons e rest ih =>
    intro o k c hf
    obtain ⟨name, counts⟩ := e
    obtain ⟨ls, h1, h2, h3⟩ := reportCounts_appends os name (mapGet none cover.Blocks name)
      (counts.getD []) 0 o k c hf
    cases hr : reportCounts os name (mapGet none cover.Blocks name) (counts.getD []) 0 (o, k) with
    | error x =>
      rw [hr] at h1 h2
      exact ⟨ls, by simpa [reportFiles, hr] using h1, by simpa [reportFiles, hr] using h2, h3⟩
    | ok st =>
      obtain ⟨o1, k1⟩ := st
      rw [hr] at h1 h2
      simp only [loopOutput] at h1 h2
      obtain ⟨ls2, g1, g2, g3⟩ := ih o1 k1 _ h2
      refine ⟨ls ++ ls2, ?_, ?_, allData_append ls ls2 h3 g3⟩
      · simp only [reportFiles, hr]
        rw [g1, h1, List.append_assoc]
      · simp only [reportFiles, hr]
        rw [g2]
        simp

theorem deferredClose_output (os : FlushEnv) (x : ReportOutcome) :
    (deferredClose os x).output.written = x.output.written ∧
      (deferredClose os x).output.file = x.output.file := by
  cases x <;> cases hc : os.closeErr <;>
    simp [deferredClose, mustBeNil, hc, ReportOutcome.output]

theorem reportLoop_appends (os : FlushEnv) (iter : List (GoString × Slice Nat)) (cover : Cover)
    (o : Output) (c : GoString) (hf : o.file = some c) :
    ∃ ls, AllData ls ∧ (reportLoop os iter cover o).output.written = o.written ++ ls ∧
      (reportLoop os iter cover o).output.file = some (c ++ ls.flatten) := by
  obtain ⟨ls, h1, h2, h3⟩ := reportFiles_appends os cover iter o 0 c hf
  refine ⟨ls, h3, ?_, ?_⟩
  · unfold reportLoop
    rw [(deferredClose_output os _).1]
    cases hr : reportFiles os cover iter (o, 0) with
    | error x => rw [hr] at h1; simpa [loopOutput] using h1
    | ok st => rw [hr] at h1; simpa [loopOutput, ReportOutcome.output] using h1
  · unfold reportLoop
    rw [(deferredClose_output os _).2]
    cases hr : reportFiles os cover iter (o, 0) with
    | error x => rw [hr] at h2; simpa [loopOutput] using h2
    | ok st => rw [hr] at h2; simpa [loopOutput, ReportOutcome.output] using h2

/-- Whatever happens during a flush, what it writes is the header, if any,
followed by data lines only, and the file is its prior content followed by
what was written. -/
theorem coverageReport_appends (os : FlushEnv) (iter : List (GoString × Slice Nat))
    (cover : Cover) (file : Option GoString) :
    ∃ ls, AllData ls ∧
      (coverageReport os iter cover file).output.written =
        headerWritten os cover.Mode file ++ ls ∧
      (coverageReport os iter cover file).output.file =
        if os.openErr = none then
          some (file.getD [] ++ (headerWritten os cover.Mode file ++ ls).flatten)
        else file := by
  cases ho : os.openErr with
  | some e =>
    exact ⟨[], allData_nil, by simp [coverageReport, mustBeNil, ho, ReportOutcome.output,
      headerWritten], by simp [coverageReport, mustBeNil, ho, ReportOutcome.output]⟩
  | none =>
    cases hs : os.statErr with
    | some e =>
      exact ⟨[], allData_nil, by simp [coverageReport, mustBeNil, ho, hs, ReportOutcome.output,
        headerWritten], by simp [coverageReport, mustBeNil, ho, hs, ReportOutcome.output,
        headerWritten]⟩
    | none =>
      have hcr : coverageReport os iter cover file =
          reportLoop os iter cover
            (writeHeader os cover { file := some (file.getD []), written := [], stderr := [] }) := by
        simp only [coverageReport, mustBeNil, ho, hs]
      rw [hcr]
      by_cases hlen : (file.getD []).length = 0
      · cases hh : os.headerErr with
        | true =>
          have hw : writeHeader os cover
              { file := some (file.getD []), written := [], stderr := [] } =
              { file := some (file.getD []), written := [], stderr := [] } := by
            simp [writeHeader, hh]
          rw [hw]
          obtain ⟨ls, h3, h1, h2⟩ := reportLoop_appends os iter cover
            { file := some (file.getD []), written := [], stderr := [] } (file.getD []) rfl
          exact ⟨ls, h3, by simpa [headerWritten, hh] using h1,
            by simpa [headerWritten, hh] using h2⟩
        | false =>
          have hw : writeHeader os cover
              { file := some (file.getD []), written := [], stderr := [] } =
              { file := some (file.getD [] ++ headerLine cover.Mode),
                written := [headerLine cover.Mode], stderr := [] } := by
            simp [writeHeader, hh, hlen, Output.write]
          rw [hw]
          obtain ⟨ls, h3, h1, h2⟩ := reportLoop_appends os iter cover
            { file := some (file.getD [] ++ headerLine cover.Mode),
              written := [headerLine cover.Mode], stderr := [] }
            (file.getD [] ++ headerLine cover.Mode) rfl
          exact ⟨ls, h3, by simpa [headerWritten, ho, hs, hh, hlen] using h1,
            by simpa [headerWritten, ho, hs, hh, hlen] using h2⟩
      · have hw : writeHeader os cover
            { file := some (file.getD []), written := [], stderr := [] } =
            { file := some (file.getD []), written := [], stderr := [] } := by
          simp [writeHeader, hlen]
        rw [hw]
        obtain ⟨ls, h3, h1, h2⟩ := reportLoop_appends os iter cover
          { file := some (file.getD []), written := [], stderr := [] } (file.getD []) rfl
        exact ⟨ls, h3, by simpa [headerWritten, hlen] using h1,
          by simpa [headerWritten, hlen] using h2⟩


theorem mapSet_keys {V : Type} (m : GoMap V) (k : GoString) (v : V) :
    (mapSet m k v).map Prod.fst =
      if k ∈ m.map Prod.fst then m.map Prod.fst else m.map Prod.fst ++ [k] := by
  induction m with
  | nil => simp [mapSet]
  | cons e rest ih =>
    obtain ⟨a, w⟩ := e
    by_cases h : a = k
    · subst h
      have : a ∈ ((a, w) :: rest).map Prod.fst := List.mem_cons_self _ _
      rw [if_pos this]
      simp only [mapSet, if_true, List.map_cons]
    · have hne : ¬ k = a := Ne.symm h
      have hm : mapSet ((a, w) :: rest) k v = (a, w) :: mapSet rest k v := by
        simp only [mapSet, if_neg h]
      rw [hm, List.map_cons, ih]
      by_cases hk : k ∈ rest.map Prod.fst
      · have : k ∈ ((a, w) :: rest).map Prod.fst := List.mem_cons_of_mem _ hk
        rw [if_pos hk, if_pos this]
        rfl
      · have : k ∉ ((a, w) :: rest).map Prod.fst := by
          intro hc
          rcases List.mem_cons.1 hc with hc | hc
          · exact hne hc
          · exact hk hc
        rw [if_neg hk, if_neg this]
        rfl

theorem mapSet_keys_nodup {V : Type} (m : GoMap V) (k : GoString) (v : V)
    (h : (m.map Prod.fst).Nodup) : ((mapSet m k v).map Prod.fst).Nodup := by
  rw [mapSet_keys]
  split
  · exact h
  · rename_i hk
    exact List.Nodup.append h (List.nodup_singleton k)
      (by
        intro x hx hx'
        rw [List.mem_singleton] at hx'
        exact hk (hx' ▸ hx))

theorem mem_mapSet {V : Type} (m : GoMap V) (k : GoString) (v : V)
    (hnd : (m.map Prod.fst).Nodup) (e : GoString × V) (he : e ∈ mapSet m k v) :
    e = (k, v) ∨ (e ∈ m ∧ e.1 ≠ k) := by
  induction m with
  | nil =>
    simp only [mapSet, List.mem_singleton] at he
    exact Or.inl he
  | cons x rest ih =>
    obtain ⟨a, w⟩ := x
    have hnd' : (rest.map Prod.fst).Nodup := (List.nodup_cons.1 hnd).2
    have ha : a ∉ rest.map Prod.fst := (List.nodup_cons.1 hnd).1
    by_cases h : a = k
    · subst h
      simp only [mapSet, if_true, List.mem_cons] at he
      rcases he with he | he
      · exact Or.inl he
      · refine Or.inr ⟨List.mem_cons_of_mem _ he, ?_⟩
        intro hc
        exact ha (hc ▸ List.mem_map_of_mem Prod.fst he)
    · simp only [mapSet, if_neg h, List.mem_cons] at he
      rcases he with he | he
      · refine Or.inr ⟨by rw [he]; exact List.mem_cons_self _ _, ?_⟩
        rw [he]
        exact h
      · rcases ih hnd' he with h1 | ⟨h1, h2⟩
        · exact Or.inl h1
        · exact Or.inr ⟨List.mem_cons_of_mem _ h1, h2⟩

theorem sameShape_keys (a b : GoMap (Slice Nat)) (h : SameShape a b) :
    a.map Prod.fst = b.map Prod.fst := by
  unfold SameShape at h
  induction h with
  | nil => rfl
  | cons hxy _ ih => simp [hxy.1, ih]

theorem sameShape_mem (a b : GoMap (Slice Nat)) (h : SameShape a b) :
    ∀ y ∈ b, ∃ x ∈ a, x.1 = y.1 ∧ Slice.len x.2 = Slice.len y.2 := by
  unfold SameShape at h
  induction h with
  | nil => intro y hy; cases hy
  | cons hxy _ ih =>
    intro y hy
    rcases List.mem_cons.1 hy with hy | hy
    · subst hy
      exact ⟨_, List.mem_cons_self _ _, hxy.1, hxy.2.1⟩
    · obtain ⟨x, hx, hh⟩ := ih y hy
      exact ⟨x, List.mem_cons_of_mem _ hx, hh⟩

/-- A call that returns keeps the two maps in agreement. -/
theorem coverRegisterFile_consistent (fileName : GoString) (counter pos numStmts : Slice Nat)
    (r r1 : Registry) (hc : r.Consistent)
    (h : coverRegisterFile fileName counter pos numStmts r = RegOutcome.ok r1) :
    r1.Consistent := by
  by_cases hsz : 3 * counter.len ≠ pos.len ∨ counter.len ≠ numStmts.len
  · unfold coverRegisterFile at h
    rw [if_pos hsz] at h
    cases h
  · by_cases hreg : mapGet none r.coverCounters fileName ≠ none
    · rw [coverRegisterFile_registered fileName counter pos numStmts r hsz hreg] at h
      cases h
      exact hc
    · have hnew : mapGet none r.coverCounters fileName = none := by
        by_contra hne
        exact hreg hne
      have h3 : 3 * counter.len = pos.len := by
        by_contra hne
        exact hsz (Or.inl hne)
      have hn : counter.len = numStmts.len := by
        by_contra hne
        exact hsz (Or.inr hne)
      obtain ⟨bs, -, hlen, -, hres⟩ :=
        coverRegisterFile_fresh fileName counter pos numStmts r h3 hn hnew
      rw [hres] at h
      cases h
      refine ⟨mapSet_keys_nodup _ _ _ hc.1, ?_⟩
      intro e he
      simp only [] at he ⊢
      rcases mem_mapSet _ _ _ hc.1 e he with h1 | ⟨h1, h2⟩
      · subst h1
        simp only [mapGet_mapSet, if_true]
        exact hlen
      · rw [mapGet_mapSet, if_neg (fun hc' => h2 hc'.symm)]
        exact hc.2 e h1

/-- Every reachable registry has its two maps in agreement. -/
theorem reachable_consistent (r : Registry) (h : Reachable r) : r.Consistent := by
  induction h with
  | empty => exact ⟨List.nodup_nil, fun e he => absurd he (List.not_mem_nil _)⟩
  | register r r1 c _ hcall ih =>
    exact coverRegisterFile_consistent c.fileName c.counter c.pos c.numStmts r r1 ih hcall
  | count r counters _ hshape ih =>
    refine ⟨?_, ?_⟩
    · show (counters.map Prod.fst).Nodup
      rw [← sameShape_keys _ _ hshape]
      exact ih.1
    · intro e he
      obtain ⟨x, hx, h1, h2⟩ := sameShape_mem _ _ hshape e he
      show Slice.len (mapGet none r.coverBlocks e.1) = Slice.len e.2
      rw [← h1, ← h2]
      exact ih.2 x hx


/-- With working writes and a block for every counter, the inner loop writes
one line per counter and goes on. -/
theorem reportCounts_ok (os : FlushEnv) (hw : ∀ k, os.writeErr k = none) (name : GoString)
    (blocks : List CoverBlock) :
    ∀ (counts : List Nat) (i : Nat) (o : Output) (k : Nat), i + counts.length ≤ blocks.length →
    ∃ o1 k1, reportCounts os name (some blocks) counts i (o, k) = Except.ok (o1, k1) ∧
      o1.written = o.written ++ List.zipWith (dataLine name) (blocks.drop i) counts := by
  intro counts
  induction counts with
  | nil =>
    intro i o k _
    exact ⟨o, k, rfl, by simp⟩
  | cons count rest ih =>
    intro i o k hlen
    simp only [List.length_cons] at hlen
    have hi : i < blocks.length := by omega
    have hb : Slice.at? (some blocks) i = some blocks[i] := by
      simp [Slice.at?, hi]
    obtain ⟨o1, k1, h1, h2⟩ := ih (i + 1) (o.write (dataLine name blocks[i] count)) (k + 1)
      (by omega)
    refine ⟨o1, k1, ?_, ?_⟩
    · simp only [reportCounts, hb, hw k]
      exact h1
    · rw [h2, List.drop_eq_getElem_cons hi]
      simp only [Output.write, List.append_assoc, List.singleton_append, List.zipWith_cons_cons]

theorem reportFiles_ok (os : FlushEnv) (hw : ∀ k, os.writeErr k = none) (cover : Cover) :
    ∀ (iter : List (GoString × Slice Nat)) (o : Output) (k : Nat),
    (∀ e ∈ iter, Slice.len (mapGet none cover.Blocks e.1) = Slice.len e.2) →
    ∃ o1 k1, reportFiles os cover iter (o, k) = Except.ok (o1, k1) ∧
      o1.written = o.written ++ reportLines cover iter := by
  intro iter
  induction iter with
  | nil =>
    intro o k _
    exact ⟨o, k, rfl, by simp [reportLines]⟩
  | cons e rest ih =>
    intro o k hcons
    obtain ⟨name, counts⟩ := e
    have hlen := hcons (name, counts) (List.mem_cons_self _ _)
    simp only [] at hlen
    have hstep : ∃ o1 k1,
        reportCounts os name (mapGet none cover.Blocks name) (counts.getD []) 0 (o, k) =
          Except.ok (o1, k1) ∧
        o1.written = o.written ++ fileLines name (mapGet none cover.Blocks name) counts := by
      cases hb : mapGet none cover.Blocks name with
      | none =>
        rw [hb] at hlen
        have hc : counts.getD [] = [] := by
          cases counts with
          | none => rfl
          | some l =>
            simp only [Slice.len] at hlen
            simpa using List.length_eq_zero.1 hlen.symm
        exact ⟨o, k, by simp [hc, reportCounts], by simp [fileLines, hc]⟩
      | some bl =>
        rw [hb] at hlen
        have hle : 0 + (counts.getD []).length ≤ bl.length := by
          cases counts with
          | none => simp
          | some l => simp only [Slice.len] at hlen; simp [hlen]
        obtain ⟨o1, k1, h1, h2⟩ := reportCounts_ok os hw name bl (counts.getD []) 0 o k hle
        exact ⟨o1, k1, h1, by simpa [fileLines] using h2⟩
    obtain ⟨o1, k1, h1, h2⟩ := hstep
    obtain ⟨o2, k2, g1, g2⟩ := ih o1 k1 (fun x hx => hcons x (List.mem_cons_of_mem _ hx))
    refine ⟨o2, k2, ?_, ?_⟩
    · simp only [reportFiles, h1]
      exact g1
    · rw [g2, h2]
      simp [reportLines, List.flatMap_cons]

/-- A flush without faults over entries that all have their blocks returns, and
has written the header, if due, and then the data lines of every entry. -/
theorem coverageReport_ok (os : FlushEnv) (hos : os.NoFault)
    (iter : List (GoString × Slice Nat)) (cover : Cover) (file : Option GoString)
    (hcons : ∀ e ∈ iter, Slice.len (mapGet none cover.Blocks e.1) = Slice.len e.2) :
    ∃ o, coverageReport os iter cover file = ReportOutcome.done o ∧
      o.written = headerWritten os cover.Mode file ++ reportLines cover iter ∧
      o.file = some (file.getD [] ++
        (headerWritten os cover.Mode file ++ reportLines cover iter).flatten) := by
  obtain ⟨ho, hs, hh, hw, hc⟩ := hos
  obtain ⟨o1, k1, h1, h2⟩ := reportFiles_ok os hw cover iter
    (writeHeader os cover { file := some (file.getD []), written := [], stderr := [] }) 0 hcons
  have hcr : coverageReport os iter cover file = ReportOutcome.done o1 := by
    simp only [coverageReport, mustBeNil, ho, hs, reportLoop, h1, deferredClose, hc]
  have hwr : o1.written = headerWritten os cover.Mode file ++ reportLines cover iter := by
    rw [h2]
    congr 1
    by_cases hlen : (file.getD []).length = 0
    · simp [writeHeader, headerWritten, ho, hs, hh, hlen, Output.write]
    · simp [writeHeader, headerWritten, ho, hs, hh, hlen]
  obtain ⟨ls, -, g1, g2⟩ := coverageReport_appends os iter cover file
  rw [hcr] at g1 g2
  simp only [ReportOutcome.output] at g1 g2
  refine ⟨o1, hcr, hwr, ?_⟩
  rw [g2, if_pos ho, ← g1, hwr]

theorem fileLines_length (name : GoString) (blocks : Slice CoverBlock) (counts : Slice Nat)
    (h : Slice.len blocks = Slice.len counts) :
    (fileLines name blocks counts).length = Slice.len counts := by
  unfold fileLines
  rw [List.length_zipWith]
  cases blocks <;> cases counts <;> simp_all [Slice.len]

theorem reportLines_length (cover : Cover) : ∀ (iter : List (GoString × Slice Nat)),
    (∀ e ∈ iter, Slice.len (mapGet none cover.Blocks e.1) = Slice.len e.2) →
    (reportLines cover iter).length = (iter.map fun e => Slice.len e.2).sum := by
  intro iter
  induction iter with
  | nil => intro _; rfl
  | cons e rest ih =>
    intro h
    have h1 := fileLines_length e.1 (mapGet none cover.Blocks e.1) e.2
      (h e (List.mem_cons_self _ _))
    have h2 := ih (fun x hx => h x (List.mem_cons_of_mem _ hx))
    unfold reportLines at h2 ⊢
    simp only [List.flatMap_cons, List.length_append, List.map_cons, List.sum_cons, h1, h2]

/-- C7. In every reachable registry state, a flush without faults returns and
writes, after the header if one is due, exactly the data lines of the
registered files: for each file (each once, in the order of the `range`) one
line per counter index in increasing order, built from the block and the
counter of that index. Their number is the number of counters. -/
theorem coverageReport_lines (r : Registry) (hr : Reachable r) (os : FlushEnv)
    (hos : os.NoFault) (iter : List (GoString × Slice Nat))
    (hperm : iter.Perm r.coverCounters) (file : Option GoString) :
    ∃ o, coverageReport os iter (initCover r) file = ReportOutcome.done o ∧
      o.written = headerWritten os "set".toList file ++
        iter.flatMap (fun e =>
          List.zipWith (dataLine e.1) ((mapGet none r.coverBlocks e.1).getD []) (e.2.getD [])) ∧
      (∀ e ∈ iter, ((mapGet none r.coverBlocks e.1).getD []).length = (e.2.getD []).length) ∧
      (iter.map Prod.fst).Nodup ∧
      (iter.flatMap (fun e =>
          List.zipWith (dataLine e.1) ((mapGet none r.coverBlocks e.1).getD [])
            (e.2.getD []))).length = r.numCounters := by
  have hc := reachable_consistent r hr
  have hcons : ∀ e ∈ iter,
      Slice.len (mapGet none (initCover r).Blocks e.1) = Slice.len e.2 :=
    fun e he => hc.2 e (hperm.mem_iff.1 he)
  obtain ⟨o, h1, h2, -⟩ := coverageReport_ok os hos iter (initCover r) file hcons
  refine ⟨o, h1, h2, ?_, ?_, ?_⟩
  · intro e he
    have := hcons e he
    simp only [initCover] at this
    cases hb : mapGet none r.coverBlocks e.1 <;> cases hcnt : e.2 <;>
      simp_all [Slice.len]
  · exact (hperm.map Prod.fst).nodup_iff.2 hc.1
  · have := reportLines_length (initCover r) iter hcons
    unfold reportLines fileLines at this
    simp only [initCover] at this
    rw [this]
    unfold Registry.numCounters
    exact (hperm.map _).sum_eq


theorem noFault_ok : FlushEnv.NoFault FlushEnv.ok := ⟨rfl, rfl, rfl, fun _ => rfl, rfl⟩

theorem reachable_sampleRegistry : Reachable sampleRegistry :=
  Reachable.register Registry.empty sampleRegistry
    { fileName := "a.go".toList, counter := some [0], pos := some [1, 2, 3],
      numStmts := some [1] }
    Reachable.empty (by decide)

theorem reachable_sampleCounted : Reachable sampleCounted :=
  Reachable.count sampleRegistry sampleCounted.coverCounters reachable_sampleRegistry
    (List.Forall₂.cons ⟨rfl, rfl, rfl⟩ List.Forall₂.nil)

/-- The instance of `coverageReport_lines` at the sample registry with its
counter set, flushed into a file that does not exist yet. -/
theorem coverageReport_lines_witness :
    Reachable sampleCounted ∧ FlushEnv.NoFault FlushEnv.ok ∧
      List.Perm sampleCounted.coverCounters sampleCounted.coverCounters ∧
      ∃ o, coverageReport FlushEnv.ok sampleCounted.coverCounters (initCover sampleCounted) none =
          ReportOutcome.done o ∧
        o.written = headerWritten FlushEnv.ok "set".toList none ++
          sampleCounted.coverCounters.flatMap (fun e =>
            List.zipWith (dataLine e.1) ((mapGet none sampleCounted.coverBlocks e.1).getD [])
              (e.2.getD [])) ∧
        (∀ e ∈ sampleCounted.coverCounters,
          ((mapGet none sampleCounted.coverBlocks e.1).getD []).length = (e.2.getD []).length) ∧
        (sampleCounted.coverCounters.map Prod.fst).Nodup ∧
        (sampleCounted.coverCounters.flatMap (fun e =>
            List.zipWith (dataLine e.1) ((mapGet none sampleCounted.coverBlocks e.1).getD [])
              (e.2.getD []))).length = sampleCounted.numCounters :=
  ⟨reachable_sampleCounted, noFault_ok, List.Perm.refl _,
    coverageReport_lines sampleCounted reachable_sampleCounted FlushEnv.ok noFault_ok
      sampleCounted.coverCounters (List.Perm.refl _) none⟩

/-- The sample flush, evaluated: a header and one data line. -/
theorem coverageReport_sample :
    coverageReport FlushEnv.ok sampleCounted.coverCounters (initCover sampleCounted) none =
      ReportOutcome.done
        { file := some "mode: set\na.go:1.3,2.0 1 1\n".toList,
          written := ["mode: set\n".toList, "a.go:1.3,2.0 1 1\n".toList],
          stderr := [] } := by
  decide

theorem dataLine_ne_header (name : GoString) (b : CoverBlock) (count : Nat) :
    dataLine name b count ≠ "mode: set\n".toList := by
  intro h
  have h1 : '.' ∈ dataLine name b count := by
    unfold dataLine
    simp
  rw [h] at h1
  revert h1
  decide

/-- C8. For every registry and every prior content of the report file, what a
flush writes is data lines, none of them the header, preceded by the single
header line `mode: set` when the file was empty or absent (and the file could
be opened, inspected and written), and by nothing when the file was not
empty. -/
theorem coverageReport_header (os : FlushEnv) (iter : List (GoString × Slice Nat))
    (r : Registry) (file : Option GoString) :
    ∃ ls, AllData ls ∧ "mode: set\n".toList ∉ ls ∧
      (file.getD [] = [] → os.openErr = none → os.statErr = none → os.headerErr = false →
        (coverageReport os iter (initCover r) file).output.written =
          "mode: set\n".toList :: ls) ∧
      (file.getD [] ≠ [] →
        (coverageReport os iter (initCover r) file).output.written = ls) := by
  obtain ⟨ls, h1, h2, -⟩ := coverageReport_appends os iter (initCover r) file
  refine ⟨ls, h1, ?_, ?_, ?_⟩
  · intro hmem
    obtain ⟨name, b, count, hl⟩ := h1 _ hmem
    exact dataLine_ne_header name b count hl.symm
  · intro hf ho hs hh
    rw [h2]
    simp [headerWritten, ho, hs, hh, hf, initCover, headerLine]
  · intro hf
    rw [h2]
    have : ¬ (file.getD []).length = 0 := fun hc => hf (List.length_eq_zero.1 hc)
    simp [headerWritten, this]


theorem digitChar_ne_newline : ∀ m, m < 10 → Nat.digitChar m ≠ '\n' := by
  decide

theorem toDigitsCore_no_newline : ∀ (fuel n : Nat) (ds : List Char),
    '\n' ∉ ds → '\n' ∉ Nat.toDigitsCore 10 fuel n ds := by
  intro fuel
  induction fuel with
  | zero => intro n ds h; simpa [Nat.toDigitsCore] using h
  | succ fuel ih =>
    intro n ds h
    have hcons : '\n' ∉ Nat.digitChar (n % 10) :: ds := by
      intro hc
      rcases List.mem_cons.1 hc with hc | hc
      · exact digitChar_ne_newline _ (Nat.mod_lt n (by decide)) hc.symm
      · exact h hc
    simp only [Nat.toDigitsCore]
    split
    · exact hcons
    · exact ih _ _ hcons

theorem fmtD_no_newline (k : Nat) : '\n' ∉ fmtD k := by
  have h : fmtD k = Nat.toDigitsCore 10 (k + 1) k [] := rfl
  rw [h]
  exact toDigitsCore_no_newline _ _ _ (List.not_mem_nil _)

theorem lineCount_append (a b : GoString) : lineCount (a ++ b) = lineCount a + lineCount b := by
  unfold lineCount
  exact List.count_append _ _ _

theorem lineCount_fmtD (k : Nat) : lineCount (fmtD k) = 0 :=
  List.count_eq_zero_of_not_mem (fmtD_no_newline k)

theorem lineCount_dataLine (name : GoString) (b : CoverBlock) (count : Nat)
    (h : '\n' ∉ name) : lineCount (dataLine name b count) = 1 := by
  have hn : lineCount name = 0 := List.count_eq_zero_of_not_mem h
  unfold dataLine
  simp only [lineCount_append, lineCount_fmtD, hn]
  decide

theorem lineCount_flatten : ∀ (ls : List GoString), (∀ l ∈ ls, lineCount l = 1) →
    lineCount ls.flatten = ls.length := by
  intro ls
  induction ls with
  | nil => intro _; rfl
  | cons l rest ih =>
    intro h
    rw [List.flatten_cons, lineCount_append, h l (List.mem_cons_self _ _),
      ih (fun x hx => h x (List.mem_cons_of_mem _ hx)), List.length_cons]
    omega

theorem mem_zipWith_dataLine (name : GoString) : ∀ (bs : List CoverBlock) (cs : List Nat)
    (l : GoString), l ∈ List.zipWith (dataLine name) bs cs → ∃ b c, l = dataLine name b c := by
  intro bs
  induction bs with
  | nil => intro cs l h; simp at h
  | cons b bs ih =>
    intro cs l h
    cases cs with
    | nil => simp at h
    | cons c cs =>
      simp only [List.zipWith_cons_cons, List.mem_cons] at h
      rcases h with h | h
      · exact ⟨b, c, h⟩
      · exact ih cs l h

theorem reportLines_lineCount (cover : Cover) (iter : List (GoString × Slice Nat))
    (h : ∀ e ∈ iter, '\n' ∉ e.1) : ∀ l ∈ reportLines cover iter, lineCount l = 1 := by
  intro l hl
  unfold reportLines at hl
  obtain ⟨e, he, hle⟩ := List.mem_flatMap.1 hl
  unfold fileLines at hle
  obtain ⟨b, c, rfl⟩ := mem_zipWith_dataLine e.1 _ _ l hle
  exact lineCount_dataLine e.1 b c (h e he)


theorem headerWritten_empty (os : FlushEnv) (hos : os.NoFault) (file : Option GoString)
    (h : file.getD [] = []) :
    headerWritten os "set".toList file = ["mode: set\n".toList] := by
  obtain ⟨ho, hs, hh, -, -⟩ := hos
  simp [headerWritten, ho, hs, hh, h, headerLine]

theorem headerWritten_nonempty (os : FlushEnv) (mode : GoString) (file : Option GoString)
    (h : file.getD [] ≠ []) : headerWritten os mode file = [] := by
  have : ¬ (file.getD []).length = 0 := fun hc => h (List.length_eq_zero.1 hc)
  simp [headerWritten, this]

/-- C9. A flush only appends: however it ends, the prior content of the file is
a prefix of the content afterwards. And when two runs flush without faults, one
after the other, into a file that was empty or absent, the file ends up as the
header, the data lines of the first run and the data lines of the second run:
one line more than the numbers of counters of the two runs together. -/
theorem coverageReport_appends_only (r1 r2 : Registry) (h1 : Reachable r1) (h2 : Reachable r2)
    (os1 os2 : FlushEnv) (hos1 : os1.NoFault) (hos2 : os2.NoFault)
    (iter1 iter2 : List (GoString × Slice Nat))
    (hp1 : iter1.Perm r1.coverCounters) (hp2 : iter2.Perm r2.coverCounters)
    (file0 : Option GoString) (hempty : file0.getD [] = []) :
    (∀ (os : FlushEnv) (iter : List (GoString × Slice Nat)) (cover : Cover)
        (file : Option GoString),
        file.getD [] <+: (coverageReport os iter cover file).output.file.getD []) ∧
      ∃ o1 o2 lines1 lines2,
        coverageReport os1 iter1 (initCover r1) file0 = ReportOutcome.done o1 ∧
        coverageReport os2 iter2 (initCover r2) o1.file = ReportOutcome.done o2 ∧
        o1.written = "mode: set\n".toList :: lines1 ∧ o2.written = lines2 ∧
        o1.file = some ("mode: set\n".toList ++ lines1.flatten) ∧
        o2.file = some ("mode: set\n".toList ++ lines1.flatten ++ lines2.flatten) ∧
        lines1.length = r1.numCounters ∧ lines2.length = r2.numCounters ∧
        ((∀ e ∈ r1.coverCounters, '\n' ∉ e.1) → (∀ e ∈ r2.coverCounters, '\n' ∉ e.1) →
          lineCount (o2.file.getD []) = 1 + r1.numCounters + r2.numCounters) := by
  constructor
  · intro os iter cover file
    obtain ⟨ls, -, -, hf⟩ := coverageReport_appends os iter cover file
    rw [hf]
    split
    · exact List.prefix_append _ _
    · exact List.prefix_refl _
  · have hc1 := reachable_consistent r1 h1
    have hc2 := reachable_consistent r2 h2
    have hcons1 : ∀ e ∈ iter1,
        Slice.len (mapGet none (initCover r1).Blocks e.1) = Slice.len e.2 :=
      fun e he => hc1.2 e (hp1.mem_iff.1 he)
    have hcons2 : ∀ e ∈ iter2,
        Slice.len (mapGet none (initCover r2).Blocks e.1) = Slice.len e.2 :=
      fun e he => hc2.2 e (hp2.mem_iff.1 he)
    obtain ⟨o1, hr1, hw1, hf1⟩ := coverageReport_ok os1 hos1 iter1 (initCover r1) file0 hcons1
    have hhdr1 : headerWritten os1 (initCover r1).Mode file0 = ["mode: set\n".toList] :=
      headerWritten_empty os1 hos1 file0 hempty
    rw [hhdr1] at hw1 hf1
    rw [hempty] at hf1
    have hf1' : o1.file =
        some ("mode: set\n".toList ++ (reportLines (initCover r1) iter1).flatten) := by
      rw [hf1]
      simp
    obtain ⟨o2, hr2, hw2, hf2⟩ := coverageReport_ok os2 hos2 iter2 (initCover r2) o1.file hcons2
    have hne : o1.file.getD [] ≠ [] := by
      rw [hf1']
      simp
    rw [headerWritten_nonempty os2 _ o1.file hne] at hw2 hf2
    have hf2' : o2.file =
        some ("mode: set\n".toList ++ (reportLines (initCover r1) iter1).flatten
          ++ (reportLines (initCover r2) iter2).flatten) := by
      rw [hf2, hf1']
      simp
    have hl1 : (reportLines (initCover r1) iter1).length = r1.numCounters := by
      rw [reportLines_length (initCover r1) iter1 hcons1]
      exact (hp1.map _).sum_eq
    have hl2 : (reportLines (initCover r2) iter2).length = r2.numCounters := by
      rw [reportLines_length (initCover r2) iter2 hcons2]
      exact (hp2.map _).sum_eq
    refine ⟨o1, o2, reportLines (initCover r1) iter1, reportLines (initCover r2) iter2,
      hr1, hr2, by simpa using hw1, by simpa using hw2, hf1', hf2', hl1, hl2, ?_⟩
    intro hn1 hn2
    rw [hf2']
    simp only [Option.getD_some, lineCount_append]
    rw [lineCount_flatten _ (reportLines_lineCount (initCover r1) iter1
        (fun e he => hn1 e (hp1.mem_iff.1 he))),
      lineCount_flatten _ (reportLines_lineCount (initCover r2) iter2
        (fun e he => hn2 e (hp2.mem_iff.1 he))), hl1, hl2]
    have : lineCount "mode: set\n".toList = 1 := by decide
    rw [this]

/-- The instance of `coverageReport_appends_only` at two runs of the sample
program, the first with its counter untouched and the second with it set,
flushing into a file that does not exist at first. -/
theorem coverageReport_appends_only_witness :
    Reachable sampleRegistry ∧ Reachable sampleCounted ∧
      FlushEnv.NoFault FlushEnv.ok ∧
      List.Perm sampleRegistry.coverCounters sampleRegistry.coverCounters ∧
      List.Perm sampleCounted.coverCounters sampleCounted.coverCounters ∧
      (none : Option GoString).getD [] = [] ∧
      ((∀ (os : FlushEnv) (iter : List (GoString × Slice Nat)) (cover : Cover)
          (file : Option GoString),
          file.getD [] <+: (coverageReport os iter cover file).output.file.getD []) ∧
        ∃ o1 o2 lines1 lines2,
          coverageReport FlushEnv.ok sampleRegistry.coverCounters (initCover sampleRegistry) none =
            ReportOutcome.done o1 ∧
          coverageReport FlushEnv.ok sampleCounted.coverCounters (initCover sampleCounted)
            o1.file = ReportOutcome.done o2 ∧
          o1.written = "mode: set\n".toList :: lines1 ∧ o2.written = lines2 ∧
          o1.file = some ("mode: set\n".toList ++ lines1.flatten) ∧
          o2.file = some ("mode: set\n".toList ++ lines1.flatten ++ lines2.flatten) ∧
          lines1.length = sampleRegistry.numCounters ∧
          lines2.length = sampleCounted.numCounters ∧
          ((∀ e ∈ sampleRegistry.coverCounters, '\n' ∉ e.1) →
            (∀ e ∈ sampleCounted.coverCounters, '\n' ∉ e.1) →
            lineCount (o2.file.getD []) =
              1 + sampleRegistry.numCounters + sampleCounted.numCounters)) :=
  ⟨reachable_sampleRegistry, reachable_sampleCounted, noFault_ok, List.Perm.refl _,
    List.Perm.refl _, rfl,
    coverageReport_appends_only sampleRegistry sampleCounted reachable_sampleRegistry
      reachable_sampleCounted FlushEnv.ok FlushEnv.ok noFault_ok noFault_ok
      sampleRegistry.coverCounters sampleCounted.coverCounters (List.Perm.refl _)
      (List.Perm.refl _) none rfl⟩

/-- The two sample flushes, evaluated: three lines. -/
theorem coverageReport_two_runs_sample :
    (coverageReport FlushEnv.ok sampleCounted.coverCounters (initCover sampleCounted)
        (coverageReport FlushEnv.ok sampleRegistry.coverCounters (initCover sampleRegistry)
          none).output.file).output.file =
      some "mode: set\na.go:1.3,2.0 1 0\na.go:1.3,2.0 1 1\n".toList := by
  decide

/-! ## Traversal errors -/

/-- The error the walker passes in plays no part in what `visit` does. -/
theorem visit_err_irrelevant (env : Env) (path : GoString) (err : Option GoError) (s : State) :
    visit env path err s = visit env path none s := rfl

/-- C10. The code at a traversal error: called on an unreadable directory with
the error of the walker, `visit` returns nil and changes nothing; the walk goes
on, instruments the next file, and `main` does not panic. -/
theorem visit_ignores_traversal_error :
    visit sampleEnv "/go/src/cmd/compile/internal/gc".toList
        (some "open /go/src/cmd/compile/internal/gc: permission denied".toList) State.init =
      Outcome.ret none State.init ∧
    (mainWalk sampleEnv unreadableEntries State.init).isPanic = false ∧
    (mainWalk sampleEnv unreadableEntries State.init).state.execs =
      [toolArgv 0 "cmd/compile/internal/ssa/a.go".toList] := by
  decide


/-! ## More on the filter -/

/-- What an accepted path looks like: the recorded path is the part from the
first anchor on, it splits at its last separator into the recorded directory and
a name, the package is the last segment of the directory, and name and package
pass the exclusions. -/
theorem accept?_eq_some (path rel dir pkg : GoString) (h : accept? path = some (rel, dir, pkg)) :
    ∃ pre name d0, FirstAt anchor path pre rel ∧ rel = dir ++ '/' :: name ∧ '/' ∉ name ∧
      dir = d0 ++ pkg ∧ '/' ∉ pkg ∧ (d0 = [] ∨ ∃ d1, d0 = d1 ++ ['/']) ∧
      passes name pkg = true := by
  by_cases ha : anchor <:+: path
  · obtain ⟨pre, d, name, d0, seg, hf, hn, hd, hseg, hd0⟩ := exists_decomp path ha
    rw [accept?_decomp path pre d name d0 seg hf hn hd hseg hd0] at h
    cases hp : passes name seg with
    | false => rw [hp] at h; cases h
    | true =>
      rw [hp] at h
      simp only [if_true, Option.some.injEq, Prod.mk.injEq] at h
      obtain ⟨h1, h2, h3⟩ := h
      subst h1 h2 h3
      exact ⟨pre, name, d0, hf, rfl, hn, hd, hseg, hd0, hp⟩
  · rw [accept?_no_anchor path ha] at h
    cases h

/-- The filter reads only the part of the path from the first anchor on. -/
theorem accept?_of_firstAt (path pre suf : GoString) (hf : FirstAt anchor path pre suf) :
    accept? path = accept? suf := by
  obtain ⟨d, name, hsuf, hn⟩ := exists_last_sep suf (anchor_sep_mem suf hf.2.1)
  obtain ⟨d0, seg, hd, hseg, hd0⟩ := exists_segments d
  have hf' : FirstAt anchor suf [] suf :=
    ⟨rfl, hf.2.1, fun pre' _ _ _ => Nat.zero_le pre'.length⟩
  rw [accept?_decomp path pre d name d0 seg (hsuf ▸ hf) hn hd hseg hd0,
    accept?_decomp suf [] d name d0 seg (by rw [← hsuf]; exact hf') hn hd hseg hd0]

theorem firstAt_of_Index (s r : GoString) (h : strings.Index (s ++ r) anchor = (s.length : Int)) :
    FirstAt anchor (s ++ r) s r := by
  unfold strings.Index at h
  cases hidx : strings.indexFrom anchor (s ++ r) 0 with
  | none => rw [hidx] at h; simp only [] at h; omega
  | some k =>
    rw [hidx] at h
    simp only [] at h
    have hk : k = s.length := by omega
    subst hk
    have := (indexFrom_firstAt anchor (s ++ r) s.length hidx).2
    simpa using this

/-- The last separator of a string is in one place only. -/
theorem last_sep_unique (a b n1 n2 : GoString) (h1 : '/' ∉ n1) (h2 : '/' ∉ n2)
    (h : a ++ '/' :: n1 = b ++ '/' :: n2) : a = b ∧ n1 = n2 := by
  have e1 := Split_append a n1 h1
  have e2 := Split_append b n2 h2
  rw [h, e2] at e1
  simp only [Prod.mk.injEq] at e1
  exact ⟨(List.append_cancel_right e1.1).symm, e1.2.symm⟩

theorem passes_mkbuiltin (pkg : GoString) : passes "mkbuiltin.go".toList pkg = false := by
  unfold passes
  simp

theorem passes_builtin (pkg : GoString) : passes "builtin.go".toList pkg = false := by
  unfold passes
  simp

/-- A path whose file name is one that never passes the name tests is
rejected. -/
theorem accept?_name_rejected (d name : GoString) (hn : '/' ∉ name)
    (hp : ∀ pkg, passes name pkg = false) (hd : d = [] ∨ ∃ d1, d = d1 ++ ['/']) :
    accept? (d ++ name) = none := by
  cases hacc : accept? (d ++ name) with
  | none => rfl
  | some t =>
    exfalso
    obtain ⟨rel, dir, pkg⟩ := t
    obtain ⟨pre, name1, d0, hf, hrel, hn1, -, -, -, hpass⟩ := accept?_eq_some _ _ _ _ hacc
    have hpath : d ++ name = (pre ++ dir) ++ '/' :: name1 := by
      rw [hf.1, hrel, List.append_assoc]
    rcases hd with hd | ⟨d1, hd⟩
    · subst hd
      have : '/' ∈ name := by
        rw [List.nil_append] at hpath
        rw [hpath]
        simp
      exact hn this
    · subst hd
      have hpath' : d1 ++ '/' :: name = (pre ++ dir) ++ '/' :: name1 := by
        rw [← hpath]; simp
      have := (last_sep_unique _ _ _ _ hn hn1 hpath').2
      subst this
      rw [hp pkg] at hpass
      cases hpass


/-- C12. The generator file and the generated file go together: in every
directory `d` (empty, or ending in a separator) `visit` instruments
`d + "mkbuiltin.go"` exactly when it instruments `d + "builtin.go"`, and in
fact it rejects both, whatever the directory. -/
theorem visit_builtin_pair (env : Env) (d : GoString) (err : Option GoError) (s : State)
    (hd : d = [] ∨ ∃ d1, d = d1 ++ ['/']) :
    (RunsTool (visit env (d ++ "mkbuiltin.go".toList) err s) s ↔
        RunsTool (visit env (d ++ "builtin.go".toList) err s) s) ∧
      visit env (d ++ "mkbuiltin.go".toList) err s = Outcome.ret none s ∧
      visit env (d ++ "builtin.go".toList) err s = Outcome.ret none s := by
  have h1 : visit env (d ++ "mkbuiltin.go".toList) err s = Outcome.ret none s := by
    rw [visit_eq_accept,
      accept?_name_rejected d "mkbuiltin.go".toList (by decide) passes_mkbuiltin hd]
  have h2 : visit env (d ++ "builtin.go".toList) err s = Outcome.ret none s := by
    rw [visit_eq_accept,
      accept?_name_rejected d "builtin.go".toList (by decide) passes_builtin hd]
  refine ⟨?_, h1, h2⟩
  rw [h1, h2]

/-- The instance of `visit_builtin_pair` at the directory of package `gc`, which
is not a builtin package. -/
theorem visit_builtin_pair_witness :
    ("/go/src/cmd/compile/internal/gc/".toList = [] ∨
        ∃ d1, "/go/src/cmd/compile/internal/gc/".toList = d1 ++ ['/']) ∧
      ((RunsTool (visit sampleEnv
            ("/go/src/cmd/compile/internal/gc/".toList ++ "mkbuiltin.go".toList) none State.init)
            State.init ↔
          RunsTool (visit sampleEnv
            ("/go/src/cmd/compile/internal/gc/".toList ++ "builtin.go".toList) none State.init)
            State.init) ∧
        visit sampleEnv ("/go/src/cmd/compile/internal/gc/".toList ++ "mkbuiltin.go".toList)
          none State.init = Outcome.ret none State.init ∧
        visit sampleEnv ("/go/src/cmd/compile/internal/gc/".toList ++ "builtin.go".toList)
          none State.init = Outcome.ret none State.init) :=
  ⟨Or.inr ⟨"/go/src/cmd/compile/internal/gc".toList, rfl⟩,
    visit_builtin_pair sampleEnv "/go/src/cmd/compile/internal/gc/".toList none State.init
      (Or.inr ⟨"/go/src/cmd/compile/internal/gc".toList, rfl⟩)⟩

/-- Why the directory has to end in a separator: glued to a string that ends in
`mk`, the two names are told apart. -/
theorem visit_builtin_pair_sample :
    accept? ("cmd/compile/x/mk".toList ++ "builtin.go".toList) = none ∧
      accept? ("cmd/compile/x/mk".toList ++ "mkbuiltin.go".toList) =
        some ("cmd/compile/x/mkmkbuiltin.go".toList, "cmd/compile/x".toList, "x".toList) := by
  decide

/-- C14. The filter works on the anchor-relative form: when `r` starts with the
anchor and no occurrence of the anchor in `s ++ r` starts before offset
`len(s)`, `visit` on `s ++ r` does exactly what `visit` on `r` does, in every
state; the decision is the same, and the path that is recorded, from which
the import directory and the registration statement are computed, is `r`. -/
theorem visit_anchor_relative (env : Env) (s r : GoString) (err err2 : Option GoError)
    (st : State) (hr : anchor <+: r)
    (hfirst : ∀ pre suf, s ++ r = pre ++ suf → anchor <+: suf → s.length ≤ pre.length) :
    visit env (s ++ r) err st = visit env r err2 st ∧
      accept? (s ++ r) = accept? r ∧
      (∀ rel dir pkg, accept? (s ++ r) = some (rel, dir, pkg) →
        rel = r ∧ visit env (s ++ r) err st = instrument env r dir pkg st) := by
  have hf : FirstAt anchor (s ++ r) s r := ⟨rfl, hr, hfirst⟩
  have hacc : accept? (s ++ r) = accept? r := accept?_of_firstAt (s ++ r) s r hf
  refine ⟨?_, hacc, ?_⟩
  · rw [visit_eq_accept, visit_eq_accept, hacc]
  · intro rel dir pkg h
    obtain ⟨pre, name, d0, hf2, -⟩ := accept?_eq_some _ _ _ _ h
    have hrel : rel = r := (firstAt_unique anchor (s ++ r) pre rel s r hf2 hf).2
    refine ⟨hrel, ?_⟩
    rw [visit_eq_accept, h, hrel]

/-- The instance of `visit_anchor_relative` at the source root `/go/src/` and a
file of package `ssa`. -/
theorem visit_anchor_relative_witness :
    anchor <+: "cmd/compile/internal/ssa/a.go".toList ∧
      (∀ pre suf, "/go/src/".toList ++ "cmd/compile/internal/ssa/a.go".toList = pre ++ suf →
        anchor <+: suf → "/go/src/".toList.length ≤ pre.length) ∧
      (visit sampleEnv ("/go/src/".toList ++ "cmd/compile/internal/ssa/a.go".toList) none
          State.init =
        visit sampleEnv "cmd/compile/internal/ssa/a.go".toList none State.init ∧
        accept? ("/go/src/".toList ++ "cmd/compile/internal/ssa/a.go".toList) =
          accept? "cmd/compile/internal/ssa/a.go".toList ∧
        (∀ rel dir pkg,
          accept? ("/go/src/".toList ++ "cmd/compile/internal/ssa/a.go".toList) =
            some (rel, dir, pkg) →
          rel = "cmd/compile/internal/ssa/a.go".toList ∧
          visit sampleEnv ("/go/src/".toList ++ "cmd/compile/internal/ssa/a.go".toList) none
              State.init =
            instrument sampleEnv "cmd/compile/internal/ssa/a.go".toList dir pkg State.init)) :=
  ⟨⟨"internal/ssa/a.go".toList, rfl⟩,
    (firstAt_of_Index "/go/src/".toList "cmd/compile/internal/ssa/a.go".toList (by decide)).2.2,
    visit_anchor_relative sampleEnv "/go/src/".toList "cmd/compile/internal/ssa/a.go".toList
      none none State.init ⟨"internal/ssa/a.go".toList, rfl⟩
      (firstAt_of_Index "/go/src/".toList "cmd/compile/internal/ssa/a.go".toList
        (by decide)).2.2⟩

/-- C16. The filter has no side effects: on a path that is not eligible,
`visit` returns nil and hands back the state it was given, so `n`, `pkgs`,
`importText` and `initText` are as they were, the tool has not been run and no
file has been written. -/
theorem visit_rejected_no_effect (env : Env) (path : GoString) (err : Option GoError)
    (s : State) (h : ¬ Eligible path) :
    visit env path err s = Outcome.ret none s ∧
      (visit env path err s).state.n = s.n ∧
      (visit env path err s).state.pkgs = s.pkgs ∧
      (visit env path err s).state.importText = s.importText ∧
      (visit env path err s).state.initText = s.initText ∧
      (visit env path err s).state.execs = s.execs ∧
      (visit env path err s).state.writes = s.writes := by
  have hacc : accept? path = none := by
    cases hc : accept? path with
    | none => rfl
    | some t => exact absurd ((eligible_iff_accept path).2 (by rw [hc]; rfl)) h
  have hv : visit env path err s = Outcome.ret none s := by
    rw [visit_eq_accept, hacc]
  rw [hv]
  exact ⟨rfl, rfl, rfl, rfl, rfl, rfl, rfl⟩

/-- The instance of `visit_rejected_no_effect` at a test file, visited after one
file has been instrumented. -/
theorem visit_rejected_no_effect_witness :
    ¬ Eligible "/go/src/cmd/compile/internal/ssa/a_test.go".toList ∧
      (visit sampleEnv "/go/src/cmd/compile/internal/ssa/a_test.go".toList none
          (visit sampleEnv "/go/src/cmd/compile/internal/ssa/a.go".toList none
            State.init).state =
        Outcome.ret none
          (visit sampleEnv "/go/src/cmd/compile/internal/ssa/a.go".toList none
            State.init).state ∧
      (visit sampleEnv "/go/src/cmd/compile/internal/ssa/a_test.go".toList none
          (visit sampleEnv "/go/src/cmd/compile/internal/ssa/a.go".toList none
            State.init).state).state.n =
        (visit sampleEnv "/go/src/cmd/compile/internal/ssa/a.go".toList none State.init).state.n ∧
      (visit sampleEnv "/go/src/cmd/compile/internal/ssa/a_test.go".toList none
          (visit sampleEnv "/go/src/cmd/compile/internal/ssa/a.go".toList none
            State.init).state).state.pkgs =
        (visit sampleEnv "/go/src/cmd/compile/internal/ssa/a.go".toList none
          State.init).state.pkgs ∧
      (visit sampleEnv "/go/src/cmd/compile/internal/ssa/a_test.go".toList none
          (visit sampleEnv "/go/src/cmd/compile/internal/ssa/a.go".toList none
            State.init).state).state.importText =
        (visit sampleEnv "/go/src/cmd/compile/internal/ssa/a.go".toList none
          State.init).state.importText ∧
      (visit sampleEnv "/go/src/cmd/compile/internal/ssa/a_test.go".toList none
          (visit sampleEnv "/go/src/cmd/compile/internal/ssa/a.go".toList none
            State.init).state).state.initText =
        (visit sampleEnv "/go/src/cmd/compile/internal/ssa/a.go".toList none
          State.init).state.initText ∧
      (visit sampleEnv "/go/src/cmd/compile/internal/ssa/a_test.go".toList none
          (visit sampleEnv "/go/src/cmd/compile/internal/ssa/a.go".toList none
            State.init).state).state.execs =
        (visit sampleEnv "/go/src/cmd/compile/internal/ssa/a.go".toList none
          State.init).state.execs ∧
      (visit sampleEnv "/go/src/cmd/compile/internal/ssa/a_test.go".toList none
          (visit sampleEnv "/go/src/cmd/compile/internal/ssa/a.go".toList none
            State.init).state).state.writes =
        (visit sampleEnv "/go/src/cmd/compile/internal/ssa/a.go".toList none
          State.init).state.writes) :=
  ⟨fun h => absurd ((eligible_iff_accept _).1 h) (by decide),
    visit_rejected_no_effect sampleEnv "/go/src/cmd/compile/internal/ssa/a_test.go".toList none
      _ (fun h => absurd ((eligible_iff_accept _).1 h) (by decide))⟩


/-- The directory of a path that starts with the anchor is at least
`cmd/compile`. -/
theorem anchor_dir_prefix (d name : GoString) (hn : '/' ∉ name)
    (h : anchor <+: d ++ '/' :: name) : "cmd/compile".toList <+: d := by
  obtain ⟨t, ht⟩ := h
  have ha : anchor = "cmd/compile".toList ++ ['/'] := by decide
  rw [ha, List.append_assoc] at ht
  rcases List.append_eq_append_iff.1 ht with ⟨a, h1, -⟩ | ⟨c, h1, h2⟩
  · exact ⟨a, h1.symm⟩
  · cases c with
    | nil =>
      rw [List.append_nil] at h1
      rw [h1]
    | cons x c =>
      exfalso
      simp only [List.cons_append, List.cons.injEq] at h2
      apply hn
      rw [h2.2]
      simp

/-- C18. The slice `dir[:len(dir)-1]` in `visit` is always in range. For a path
that contains the anchor, the anchor-relative suffix splits into some `d`
followed by one separator and a name, the slice yields `d`, `d` starts with
`cmd/compile`, and `visit` goes on past the slice with `d` as its directory: it
does what the name and package tests and the instrumentation do on `d`. A path
without the anchor makes `visit` return before the slice. So `visit` never
panics at the slice: whenever it panics, the tool has been run, which comes
after the slice. -/
theorem visit_slice_in_range (env : Env) (path : GoString) (err : Option GoError) (s : State) :
    (anchor <:+: path →
      ∃ d name,
        filepath.Split (path.drop (strings.Index path anchor).toNat) = (d ++ ['/'], name) ∧
        dropLast? (filepath.Split (path.drop (strings.Index path anchor).toNat)).1 = some d ∧
        "cmd/compile".toList <+: d ∧
        visit env path err s =
          if passes name (filepath.Split d).2 then
            instrument env (path.drop (strings.Index path anchor).toNat) d
              (filepath.Split d).2 s
          else Outcome.ret none s) ∧
    (¬ anchor <:+: path →
      strings.Index path anchor = -1 ∧ visit env path err s = Outcome.ret none s) ∧
    (∀ msg, visit env path err s ≠ Outcome.panic msg s) ∧
    (∀ msg s1, visit env path err s = Outcome.panic msg s1 →
      ∃ rel, s1.execs = s.execs ++ [["go".toList, "tool".toList, "cover".toList,
        "-mode=set".toList, "-var".toList, varName s.n, rel]]) := by
  have hpanic : ∀ msg s1, visit env path err s = Outcome.panic msg s1 →
      ∃ rel, s1.execs = s.execs ++ [["go".toList, "tool".toList, "cover".toList,
        "-mode=set".toList, "-var".toList, varName s.n, rel]] := by
    intro msg s1 h
    rw [visit_eq_accept] at h
    cases hacc : accept? path with
    | none => rw [hacc] at h; cases h
    | some t =>
      obtain ⟨rel, dir, pkg⟩ := t
      rw [hacc] at h
      simp only [] at h
      have he := instrument_execs env rel dir pkg s
      rw [h] at he
      exact ⟨rel, he⟩
  refine ⟨?_, ?_, ?_, hpanic⟩
  · intro ha
    obtain ⟨pre, d, name, d0, seg, hf, hn, hd, hseg, hd0⟩ := exists_decomp path ha
    have hrel := (Index_of_firstAt anchor path pre _ hf).2
    have hsplit : filepath.Split d = (d0, seg) := by
      rw [hd]
      exact Split_segments d0 seg hseg hd0
    refine ⟨d, name, ?_, ?_, anchor_dir_prefix d name hn hf.2.1, ?_⟩
    · rw [hrel, Split_append d name hn]
    · rw [hrel, Split_append d name hn]
      exact dropLast?_append d
    · rw [hrel, hsplit]
      exact visit_decomp env path err s pre d name d0 seg hf hn hd hseg hd0
  · intro ha
    exact ⟨(Index_eq_neg_one_iff path anchor).2 ha, visit_no_anchor env path err s ha⟩
  · intro msg h
    obtain ⟨rel, he⟩ := hpanic msg s h
    have hl := congrArg List.length he
    simp at hl

/-- The comment in `main` says that all files in `cmd/compile` get coverage; the
filter leaves out, among others, the files of package `compile` itself, for
the reason its own comment gives (circular import dependence). -/
theorem visit_anchor_package_sample :
    visit sampleEnv "/go/src/cmd/compile/main.go".toList none State.init =
      Outcome.ret none State.init := by
  decide

/-- The slice at the shortest path that reaches it, the anchor alone. -/
theorem visit_slice_sample :
    dropLast? (filepath.Split ("cmd/compile/".toList.drop
        (strings.Index "cmd/compile/".toList anchor).toNat)).1 = some "cmd/compile".toList := by
  decide


/-! ## Registration statements -/

theorem acceptedPaths_eq (entries : List WalkEntry) :
    acceptedPaths entries = (accepted entries).map fun t => t.1 := by
  unfold acceptedPaths accepted
  induction entries with
  | nil => rfl
  | cons e rest ih =>
    cases h : accept? e.path <;> simp [List.filterMap_cons, h, ih]

theorem walk_regs_aux (env : Env) : ∀ (entries : List WalkEntry) (s : State),
    ToolSucceeds env entries →
    ∃ s1, Walk (visit env) entries s = Outcome.ret none s1 ∧
      s1.initText = s.initText ++
        ((List.enumFrom s.n (accepted entries)).map
          fun kt => registerLine kt.2.1 kt.2.2.2 kt.1).flatten := by
  intro entries
  induction entries with
  | nil =>
    intro s _
    exact ⟨s, rfl, by simp [accepted]⟩
  | cons e rest ih =>
    intro s hok
    have hrest : ToolSucceeds env rest := fun x hx => hok x (List.mem_cons_of_mem _ hx)
    cases hacc : accept? e.path with
    | none =>
      obtain ⟨s1, hw, ht⟩ := ih s hrest
      have hv : visit env e.path e.err s = Outcome.ret none s := by
        rw [visit_eq_accept, hacc]
      refine ⟨s1, ?_, ?_⟩
      · simp only [Walk, hv, hw]
      · simpa [accepted, hacc] using ht
    | some t =>
      obtain ⟨rel, dir, pkg⟩ := t
      have hs := hok e (List.mem_cons_self _ _) (rel, dir, pkg) hacc (varName s.n)
      obtain ⟨s0, hi, hn0, -, ht0⟩ := instrument_success env rel dir pkg s hs
      obtain ⟨s1, hw, ht⟩ := ih s0 hrest
      have hv : visit env e.path e.err s = Outcome.ret none s0 := by
        rw [visit_eq_accept, hacc]
        exact hi
      have hacc' : accepted (e :: rest) = (rel, dir, pkg) :: accepted rest := by
        simp [accepted, hacc]
      refine ⟨s1, ?_, ?_⟩
      · simp only [Walk, hv, hw]
      · rw [ht, ht0, hn0, hacc']
        simp [List.enumFrom_cons]

/-- C13. With a tool that succeeds, a walk from the initial state leaves in
`initText` one registration statement per accepted file and nothing else, in
traversal order; the statement of the `k`-th accepted file, with path `p` and
package `g`, is
`\tcoverRegisterFile("p", g.GoCover_k.Count[:], g.GoCover_k.Pos[:], g.GoCover_k.NumStmt[:])\n`,
`k` being the id under which the tool was run on `p`, and `g` the last segment
of the directory of `p`. -/
theorem walk_registrations (env : Env) (entries : List WalkEntry)
    (hok : ToolSucceeds env entries) :
    ∃ s, Walk (visit env) entries State.init = Outcome.ret none s ∧
      s.initText = ((accepted entries).enum.map fun kt =>
        "\tcoverRegisterFile(\"".toList ++ kt.2.1 ++ "\", ".toList
          ++ kt.2.2.2 ++ ".GoCover_".toList ++ fmtD kt.1 ++ ".Count[:], ".toList
          ++ kt.2.2.2 ++ ".GoCover_".toList ++ fmtD kt.1 ++ ".Pos[:], ".toList
          ++ kt.2.2.2 ++ ".GoCover_".toList ++ fmtD kt.1 ++ ".NumStmt[:])\n".toList).flatten ∧
      ∀ k p dir g, (accepted entries)[k]? = some (p, dir, g) →
        s.execs[k]? = some ["go".toList, "tool".toList, "cover".toList, "-mode=set".toList,
          "-var".toList, "GoCover_".toList ++ fmtD k, p] ∧
        ∃ name d0, p = dir ++ '/' :: name ∧ '/' ∉ name ∧ dir = d0 ++ g ∧ '/' ∉ g ∧
          (d0 = [] ∨ ∃ d1, d0 = d1 ++ ['/']) := by
  obtain ⟨s, hw, ht⟩ := walk_regs_aux env entries State.init hok
  obtain ⟨s2, hw2, -, -, -, hk⟩ := walk_ids_aux env entries State.init hok
  have hs : s2 = s := by
    rw [hw] at hw2
    cases hw2
    rfl
  subst hs
  refine ⟨s2, hw, ?_, ?_⟩
  · rw [ht]
    simp only [State.init, List.nil_append, List.enum]
    rfl
  · intro k p dir g hget
    constructor
    · have hp : (acceptedPaths entries)[k]? = some p := by
        rw [acceptedPaths_eq, List.getElem?_map, hget]
        rfl
      have := hk k p hp
      simpa [State.init, toolArgv] using this
    · have hmem : (p, dir, g) ∈ accepted entries := List.getElem?_mem hget
      unfold accepted at hmem
      obtain ⟨e, -, he⟩ := List.mem_filterMap.1 hmem
      obtain ⟨pre, name, d0, -, h1, h2, h3, h4, h5, -⟩ := accept?_eq_some _ _ _ _ he
      exact ⟨name, d0, h1, h2, h3, h4, h5⟩

/-- The instance of `walk_registrations` at the sample walk. -/
theorem walk_registrations_witness :
    ToolSucceeds sampleEnv sampleEntries ∧
      ∃ s, Walk (visit sampleEnv) sampleEntries State.init = Outcome.ret none s ∧
        s.initText = ((accepted sampleEntries).enum.map fun kt =>
          "\tcoverRegisterFile(\"".toList ++ kt.2.1 ++ "\", ".toList
            ++ kt.2.2.2 ++ ".GoCover_".toList ++ fmtD kt.1 ++ ".Count[:], ".toList
            ++ kt.2.2.2 ++ ".GoCover_".toList ++ fmtD kt.1 ++ ".Pos[:], ".toList
            ++ kt.2.2.2 ++ ".GoCover_".toList ++ fmtD kt.1 ++ ".NumStmt[:])\n".toList).flatten ∧
        ∀ k p dir g, (accepted sampleEntries)[k]? = some (p, dir, g) →
          s.execs[k]? = some ["go".toList, "tool".toList, "cover".toList, "-mode=set".toList,
            "-var".toList, "GoCover_".toList ++ fmtD k, p] ∧
          ∃ name d0, p = dir ++ '/' :: name ∧ '/' ∉ name ∧ dir = d0 ++ g ∧ '/' ∉ g ∧
            (d0 = [] ∨ ∃ d1, d0 = d1 ++ ['/']) :=
  ⟨fun _ _ _ _ _ => rfl, walk_registrations sampleEnv sampleEntries (fun _ _ _ _ _ => rfl)⟩

set_option maxRecDepth 100000 in
/-- The registration text of the sample walk, evaluated. -/
theorem walk_registrations_sample :
    (Walk (visit sampleEnv) sampleEntries State.init).state.initText =
      ("\tcoverRegisterFile(\"cmd/compile/internal/ssa/a.go\", ssa.GoCover_0.Count[:], " ++
        "ssa.GoCover_0.Pos[:], ssa.GoCover_0.NumStmt[:])\n" ++
       "\tcoverRegisterFile(\"cmd/compile/internal/ssa/b.go\", ssa.GoCover_1.Count[:], " ++
        "ssa.GoCover_1.Pos[:], ssa.GoCover_1.NumStmt[:])\n" ++
       "\tcoverRegisterFile(\"cmd/compile/internal/gc/c.go\", gc.GoCover_2.Count[:], " ++
        "gc.GoCover_2.Pos[:], gc.GoCover_2.NumStmt[:])\n").toList := by
  decide


/-! ## A whole run -/

/-- The state after instrumenting a file of a directory not seen before, when
the tool succeeds and the file can be written. -/
theorem instrument_ok_state (env : Env) (rel dir pkg : GoString) (s : State)
    (hc : (env.cover (varName s.n) rel).err = none) (hw : env.writeErr rel = false)
    (hp : mapGet false s.pkgs dir = false) :
    instrument env rel dir pkg s =
      Outcome.ret none
        { n := s.n + 1,
          pkgs := mapSet s.pkgs dir true,
          importText := s.importText ++ importLine dir,
          initText := s.initText ++ registerLine rel pkg s.n,
          stdout := s.stdout ++ ("processing ".toList ++ rel ++ "\n".toList),
          execs := s.execs ++ [toolArgv s.n rel],
          writes := s.writes ++ [(rel, (env.cover (varName s.n) rel).out)] } := by
  unfold instrument
  simp only [hp, hw, Bool.not_false, if_true, hc, Bool.false_eq_true, if_false]
  rfl

/-- C15. The end-to-end scenario: a walk over a tree under the anchor that holds
`pkg/a/a.go`, `pkg/a/a_test.go` and `builtin/b.go`, from the initial state and
with a tool that succeeds on `a.go`, whose output can be written back. The tool
is run once, on `a.go` under `GoCover_0`; `a.go` is the only file written;
the import set has the one entry of the directory of `a.go`; and there is one
registration statement, with id 0. -/
theorem walk_scenario (env : Env)
    (hc : (env.cover "GoCover_0".toList "cmd/compile/pkg/a/a.go".toList).err = none)
    (hw : env.writeErr "cmd/compile/pkg/a/a.go".toList = false) :
    Walk (visit env) scenarioEntries State.init =
      Outcome.ret none
        { n := 1,
          pkgs := [("cmd/compile/pkg/a".toList, true)],
          importText := "\t\"cmd/compile/pkg/a\"\n".toList,
          initText := ("\tcoverRegisterFile(\"cmd/compile/pkg/a/a.go\", a.GoCover_0.Count[:], " ++
            "a.GoCover_0.Pos[:], a.GoCover_0.NumStmt[:])\n").toList,
          stdout := "processing cmd/compile/pkg/a/a.go\n".toList,
          execs := [["go".toList, "tool".toList, "cover".toList, "-mode=set".toList,
            "-var".toList, "GoCover_0".toList, "cmd/compile/pkg/a/a.go".toList]],
          writes := [("cmd/compile/pkg/a/a.go".toList,
            (env.cover "GoCover_0".toList "cmd/compile/pkg/a/a.go".toList).out)] } := by
  have e1 : accept? "/go/src/cmd/compile".toList = none := by decide
  have e2 : accept? "/go/src/cmd/compile/builtin".toList = none := by decide
  have e3 : accept? "/go/src/cmd/compile/builtin/b.go".toList = none := by decide
  have e4 : accept? "/go/src/cmd/compile/pkg".toList = none := by decide
  have e5 : accept? "/go/src/cmd/compile/pkg/a".toList = none := by decide
  have e6 : accept? "/go/src/cmd/compile/pkg/a/a.go".toList =
      some ("cmd/compile/pkg/a/a.go".toList, "cmd/compile/pkg/a".toList, "a".toList) := by
    decide
  have e7 : accept? "/go/src/cmd/compile/pkg/a/a_test.go".toList = none := by decide
  have hi := instrument_ok_state env "cmd/compile/pkg/a/a.go".toList "cmd/compile/pkg/a".toList
    "a".toList State.init hc hw rfl
  unfold scenarioEntries
  simp only [Walk, visit_eq_accept, e1, e2, e3, e4, e5, e6, e7, hi]
  rfl

/-- The instance of `walk_scenario` at the sample tool. -/
theorem walk_scenario_witness :
    (sampleEnv.cover "GoCover_0".toList "cmd/compile/pkg/a/a.go".toList).err = none ∧
      sampleEnv.writeErr "cmd/compile/pkg/a/a.go".toList = false ∧
      Walk (visit sampleEnv) scenarioEntries State.init =
        Outcome.ret none
          { n := 1,
            pkgs := [("cmd/compile/pkg/a".toList, true)],
            importText := "\t\"cmd/compile/pkg/a\"\n".toList,
            initText := ("\tcoverRegisterFile(\"cmd/compile/pkg/a/a.go\", a.GoCover_0.Count[:], " ++
              "a.GoCover_0.Pos[:], a.GoCover_0.NumStmt[:])\n").toList,
            stdout := "processing cmd/compile/pkg/a/a.go\n".toList,
            execs := [["go".toList, "tool".toList, "cover".toList, "-mode=set".toList,
              "-var".toList, "GoCover_0".toList, "cmd/compile/pkg/a/a.go".toList]],
            writes := [("cmd/compile/pkg/a/a.go".toList,
              (sampleEnv.cover "GoCover_0".toList "cmd/compile/pkg/a/a.go".toList).out)] } :=
  ⟨rfl, rfl, walk_scenario sampleEnv rfl rfl⟩


/-! ## Failures of the tool and of the write -/

/-- When the tool fails on a file, `visit` panics with the tool's error after
printing the tool's output; the file is not written, nothing is registered and
`n` stays. -/
theorem instrument_failure (env : Env) (rel dir pkg : GoString) (s : State) (e : GoError)
    (h : (env.cover (varName s.n) rel).err = some e) :
    ∃ s1, instrument env rel dir pkg s = Outcome.panic e s1 ∧
      s1.writes = s.writes ∧ s1.initText = s.initText ∧ s1.n = s.n ∧
      s1.stdout = s.stdout ++ ("processing ".toList ++ rel ++ "\n".toList)
        ++ (env.cover (varName s.n) rel).out := by
  unfold instrument
  cases hp : mapGet false s.pkgs dir <;>
    simp only [hp, Bool.not_false, Bool.not_true, if_true, if_false, h, Bool.false_eq_true] <;>
    exact ⟨_, rfl, rfl, rfl, rfl, rfl⟩

/-- A failure of the tool ends the walk: the entries after the failing file
play no part in the result. -/
theorem walk_stops_at_failure (env : Env) (x : WalkEntry) (rest : List WalkEntry) (s : State)
    (rel dir pkg : GoString) (e : GoError) (hacc : accept? x.path = some (rel, dir, pkg))
    (h : (env.cover (varName s.n) rel).err = some e) :
    Walk (visit env) (x :: rest) s = instrument env rel dir pkg s ∧
      visited (visit env) (x :: rest) s = [x] ∧
      (Walk (visit env) (x :: rest) s).isPanic = true := by
  obtain ⟨s1, hi, -⟩ := instrument_failure env rel dir pkg s e h
  have hv : visit env x.path x.err s = Outcome.panic e s1 := by
    rw [visit_eq_accept, hacc]
    exact hi
  refine ⟨?_, ?_, ?_⟩
  · simp only [Walk, hv, hi]
  · simp only [visited, hv]
  · simp only [Walk, hv, Outcome.isPanic]

/-- When the tool succeeds and every write succeeds, the walk has overwritten
each accepted file, in order, with the output of the tool for that file. -/
theorem walk_overwrites_aux (env : Env) (hwr : ∀ p, env.writeErr p = false) :
    ∀ (entries : List WalkEntry) (s : State), ToolSucceeds env entries →
    ∃ s1, Walk (visit env) entries s = Outcome.ret none s1 ∧
      s1.writes = s.writes ++
        (List.enumFrom s.n (accepted entries)).map
          fun kt => (kt.2.1, (env.cover (varName kt.1) kt.2.1).out) := by
  intro entries
  induction entries with
  | nil =>
    intro s _
    exact ⟨s, rfl, by simp [accepted]⟩
  | cons e rest ih =>
    intro s hok
    have hrest : ToolSucceeds env rest := fun x hx => hok x (List.mem_cons_of_mem _ hx)
    cases hacc : accept? e.path with
    | none =>
      obtain ⟨s1, hw, ht⟩ := ih s hrest
      have hv : visit env e.path e.err s = Outcome.ret none s := by
        rw [visit_eq_accept, hacc]
      refine ⟨s1, ?_, ?_⟩
      · simp only [Walk, hv, hw]
      · simpa [accepted, hacc] using ht
    | some t =>
      obtain ⟨rel, dir, pkg⟩ := t
      have hs := hok e (List.mem_cons_self _ _) (rel, dir, pkg) hacc (varName s.n)
      have hi : ∃ s0, instrument env rel dir pkg s = Outcome.ret none s0 ∧ s0.n = s.n + 1 ∧
          s0.writes = s.writes ++ [(rel, (env.cover (varName s.n) rel).out)] := by
        unfold instrument
        cases hp : mapGet false s.pkgs dir <;>
          simp only [hp, hwr rel, Bool.not_false, Bool.not_true, if_true, if_false, hs,
            Bool.false_eq_true] <;>
          exact ⟨_, rfl, rfl, rfl⟩
      obtain ⟨s0, hi, hn0, hw0⟩ := hi
      obtain ⟨s1, hw, ht⟩ := ih s0 hrest
      have hv : visit env e.path e.err s = Outcome.ret none s0 := by
        rw [visit_eq_accept, hacc]
        exact hi
      have hacc' : accepted (e :: rest) = (rel, dir, pkg) :: accepted rest := by
        simp [accepted, hacc]
      refine ⟨s1, ?_, ?_⟩
      · simp only [Walk, hv, hw]
      · rw [ht, hw0, hn0, hacc']
        simp [List.enumFrom_cons]

set_option maxRecDepth 100000 in
/-- C11. The code when a write fails: the tool succeeds on every file of the
sample walk but no file can be written. The walk does not panic and returns
nil; no file has been overwritten, and yet all three accepted files have been
given an id and a registration statement. -/
theorem visit_ignores_write_failure :
    (mainWalk readOnlyEnv sampleEntries State.init).isPanic = false ∧
    (mainWalk readOnlyEnv sampleEntries State.init).state.writes = [] ∧
    (mainWalk readOnlyEnv sampleEntries State.init).state.n = 3 ∧
    (mainWalk readOnlyEnv sampleEntries State.init).state.execs =
      [toolArgv 0 "cmd/compile/internal/ssa/a.go".toList,
       toolArgv 1 "cmd/compile/internal/ssa/b.go".toList,
       toolArgv 2 "cmd/compile/internal/gc/c.go".toList] ∧
    (mainWalk readOnlyEnv sampleEntries State.init).state.initText =
      registerLine "cmd/compile/internal/ssa/a.go".toList "ssa".toList 0 ++
      registerLine "cmd/compile/internal/ssa/b.go".toList "ssa".toList 1 ++
      registerLine "cmd/compile/internal/gc/c.go".toList "gc".toList 2 := by
  decide

set_option maxRecDepth 100000 in
/-- The sample walk with a tool that fails: the walk panics at the first
accepted file with the tool's error, having printed the tool's diagnostic, and
nothing is written or registered. -/
theorem walk_tool_failure_sample :
    Walk (visit failingEnv) sampleEntries State.init =
      Outcome.panic "exit status 1".toList
        { n := 0,
          pkgs := [("cmd/compile/internal/ssa".toList, true)],
          importText := "\t\"cmd/compile/internal/ssa\"\n".toList,
          initText := [],
          stdout := ("processing cmd/compile/internal/ssa/a.go\n" ++
            "cover: cannot parse cmd/compile/internal/ssa/a.go").toList,
          execs := [toolArgv 0 "cmd/compile/internal/ssa/a.go".toList],
          writes := [] } := by
  decide


/-! ## The registry invariant -/

theorem mapGet_of_not_mem {V : Type} (zero : V) (m : GoMap V) (k : GoString)
    (h : k ∉ m.map Prod.fst) : mapGet zero m k = zero := by
  induction m with
  | nil => rfl
  | cons e rest ih =>
    obtain ⟨a, w⟩ := e
    have ha : ¬ a = k := fun hc => h (hc ▸ List.mem_cons_self _ _)
    have hr : k ∉ rest.map Prod.fst := fun hc => h (List.mem_cons_of_mem _ hc)
    simp only [mapGet, if_neg ha]
    exact ih hr

theorem mapGet_of_mem {V : Type} (zero : V) (m : GoMap V) (k : GoString) (v : V)
    (hnd : (m.map Prod.fst).Nodup) (h : (k, v) ∈ m) : mapGet zero m k = v := by
  induction m with
  | nil => cases h
  | cons e rest ih =>
    obtain ⟨a, w⟩ := e
    have hnd' : (rest.map Prod.fst).Nodup := (List.nodup_cons.1 hnd).2
    have ha : a ∉ rest.map Prod.fst := (List.nodup_cons.1 hnd).1
    rcases List.mem_cons.1 h with h | h
    · cases h
      simp only [mapGet, if_true]
    · have hne : ¬ a = k := by
        intro hc
        exact ha (hc ▸ List.mem_map_of_mem Prod.fst h)
      simp only [mapGet, if_neg hne]
      exact ih hnd' h

/-- In every reachable registry the two maps list the same files. -/
theorem reachable_keys (r : Registry) (h : Reachable r) :
    r.coverCounters.map Prod.fst = r.coverBlocks.map Prod.fst := by
  induction h with
  | empty => rfl
  | register r r1 c _ hcall ih =>
    by_cases hsz : 3 * c.counter.len ≠ c.pos.len ∨ c.counter.len ≠ c.numStmts.len
    · unfold coverRegisterFile at hcall
      rw [if_pos hsz] at hcall
      cases hcall
    · by_cases hreg : mapGet none r.coverCounters c.fileName ≠ none
      · rw [coverRegisterFile_registered c.fileName c.counter c.pos c.numStmts r hsz hreg] at hcall
        cases hcall
        exact ih
      · have hnew : mapGet none r.coverCounters c.fileName = none := by
          by_contra hne
          exact hreg hne
        have h3 : 3 * c.counter.len = c.pos.len := by
          by_contra hne
          exact hsz (Or.inl hne)
        have hn : c.counter.len = c.numStmts.len := by
          by_contra hne
          exact hsz (Or.inr hne)
        obtain ⟨bs, -, -, -, hres⟩ :=
          coverRegisterFile_fresh c.fileName c.counter c.pos c.numStmts r h3 hn hnew
        rw [hres] at hcall
        cases hcall
        simp only [mapSet_keys, ih]
  | count r counters _ hshape ih =>
    show counters.map Prod.fst = r.coverBlocks.map Prod.fst
    rw [← sameShape_keys _ _ hshape]
    exact ih

/-- With a block for every counter from index `i` on, the inner loop does not
panic. -/
theorem reportCounts_no_panic (os : FlushEnv) (name : GoString) (blocks : Slice CoverBlock) :
    ∀ (counts : List Nat) (i : Nat) (st : Output × Nat),
    i + counts.length ≤ Slice.len blocks →
    loopPanics (reportCounts os name blocks counts i st) = false := by
  intro counts
  induction counts with
  | nil => intro i st _; rfl
  | cons count rest ih =>
    intro i st hlen
    obtain ⟨o, k⟩ := st
    simp only [List.length_cons] at hlen
    cases blocks with
    | none => simp [Slice.len] at hlen
    | some bl =>
      simp only [Slice.len] at hlen
      have hi : i < bl.length := by omega
      have hb : Slice.at? (some bl) i = some bl[i] := by simp [Slice.at?, hi]
      cases hw : os.writeErr k with
      | some e => simp [reportCounts, hb, hw, loopPanics, mustBeNil, ReportOutcome.isPanic]
      | none =>
        simp only [reportCounts, hb, hw]
        exact ih (i + 1) _ (by simp only [Slice.len]; omega)

theorem reportFiles_no_panic (os : FlushEnv) (cover : Cover) :
    ∀ (iter : List (GoString × Slice Nat)) (st : Output × Nat),
    (∀ e ∈ iter, Slice.len (mapGet none cover.Blocks e.1) = Slice.len e.2) →
    loopPanics (reportFiles os cover iter st) = false := by
  intro iter
  induction iter with
  | nil => intro st _; rfl
  | cons e rest ih =>
    intro st hcons
    obtain ⟨name, counts⟩ := e
    have hlen := hcons (name, counts) (List.mem_cons_self _ _)
    simp only [] at hlen
    have hle : 0 + (counts.getD []).length ≤ Slice.len (mapGet none cover.Blocks name) := by
      rw [hlen]
      cases counts <;> simp [Slice.len]
    have h1 := reportCounts_no_panic os name (mapGet none cover.Blocks name) (counts.getD []) 0
      st hle
    cases hr : reportCounts os name (mapGet none cover.Blocks name) (counts.getD []) 0 st with
    | error x =>
      rw [hr] at h1
      simpa [reportFiles, hr] using h1
    | ok st1 =>
      simp only [reportFiles, hr]
      exact ih st1 (fun x hx => hcons x (List.mem_cons_of_mem _ hx))

/-- A flush over entries that all have their blocks does not panic, whatever
the operating system answers. -/
theorem coverageReport_no_panic (os : FlushEnv) (iter : List (GoString × Slice Nat))
    (cover : Cover) (file : Option GoString)
    (hcons : ∀ e ∈ iter, Slice.len (mapGet none cover.Blocks e.1) = Slice.len e.2) :
    (coverageReport os iter cover file).isPanic = false := by
  have hloop : ∀ o, (reportLoop os iter cover o).isPanic = false := by
    intro o
    have h := reportFiles_no_panic os cover iter (o, 0) hcons
    unfold reportLoop
    cases hr : reportFiles os cover iter (o, 0) with
    | error x =>
      rw [hr] at h
      simp only [loopPanics] at h
      cases x with
      | done o1 => cases hc : os.closeErr <;> simp [deferredClose, mustBeNil, hc, ReportOutcome.isPanic]
      | exit c o1 => simp [deferredClose, ReportOutcome.isPanic]
      | panic m o1 => simp [ReportOutcome.isPanic] at h
    | ok st =>
      obtain ⟨o4, k4⟩ := st
      cases hc : os.closeErr <;> simp [deferredClose, mustBeNil, hc, ReportOutcome.isPanic]
  unfold coverageReport
  cases ho : os.openErr with
  | some e => simp [mustBeNil, ReportOutcome.isPanic]
  | none =>
    cases hs : os.statErr with
    | some e => simp [mustBeNil, ReportOutcome.isPanic]
    | none =>
      simp only [mustBeNil]
      exact hloop _

/-- C17. In every reachable registry state `coverCounters` and `coverBlocks`
have the same file names as keys and, for every file name, block and counter
slices of the same length. So every index `blocks[i]` that `coverageReport`
evaluates is in range, and the flush does not panic, in whatever order it walks
the map and whatever the operating system answers. -/
theorem registry_invariant (r : Registry) (hr : Reachable r) :
    r.coverCounters.map Prod.fst = r.coverBlocks.map Prod.fst ∧
      (∀ f, Slice.len (mapGet none r.coverBlocks f) =
        Slice.len (mapGet none r.coverCounters f)) ∧
      (∀ name counts i, (name, counts) ∈ r.coverCounters → i < Slice.len counts →
        ∃ b, Slice.at? (mapGet none r.coverBlocks name) i = some b) ∧
      (∀ (os : FlushEnv) (iter : List (GoString × Slice Nat)) (file : Option GoString),
        iter.Perm r.coverCounters →
        (coverageReport os iter (initCover r) file).isPanic = false) := by
  have hc := reachable_consistent r hr
  have hk := reachable_keys r hr
  refine ⟨hk, ?_, ?_, ?_⟩
  · intro f
    by_cases hf : f ∈ r.coverCounters.map Prod.fst
    · obtain ⟨e, he, hfe⟩ := List.mem_map.1 hf
      have h1 := hc.2 e he
      have h2 : mapGet none r.coverCounters e.1 = e.2 :=
        mapGet_of_mem none r.coverCounters e.1 e.2 hc.1 he
      rw [← hfe, h1, h2]
    · rw [mapGet_of_not_mem none r.coverCounters f hf,
        mapGet_of_not_mem none r.coverBlocks f (hk ▸ hf)]
      rfl
  · intro name counts i hmem hi
    have h1 := hc.2 (name, counts) hmem
    simp only [] at h1
    cases hb : mapGet none r.coverBlocks name with
    | none =>
      rw [hb] at h1
      have h0 : Slice.len (none : Slice CoverBlock) = 0 := rfl
      rw [h0] at h1
      omega
    | some bl =>
      rw [hb] at h1
      have h0 : Slice.len (some bl) = bl.length := rfl
      rw [h0] at h1
      have hlt : i < bl.length := by omega
      exact ⟨bl[i], by simp [Slice.at?, hlt]⟩
  · intro os iter file hperm
    exact coverageReport_no_panic os iter (initCover r) file
      (fun e he => hc.2 e (hperm.mem_iff.1 he))

/-- The instance of `registry_invariant` at the sample registry with its counter
set. -/
theorem registry_invariant_witness :
    Reachable sampleCounted ∧
      (sampleCounted.coverCounters.map Prod.fst = sampleCounted.coverBlocks.map Prod.fst ∧
        (∀ f, Slice.len (mapGet none sampleCounted.coverBlocks f) =
          Slice.len (mapGet none sampleCounted.coverCounters f)) ∧
        (∀ name counts i, (name, counts) ∈ sampleCounted.coverCounters →
          i < Slice.len counts →
          ∃ b, Slice.at? (mapGet none sampleCounted.coverBlocks name) i = some b) ∧
        (∀ (os : FlushEnv) (iter : List (GoString × Slice Nat)) (file : Option GoString),
          iter.Perm sampleCounted.coverCounters →
          (coverageReport os iter (initCover sampleCounted) file).isPanic = false)) :=
  ⟨reachable_sampleCounted, registry_invariant sampleCounted reachable_sampleCounted⟩

/-- Outside the reachable states the index can be out of range: a registry with
a counter and no block makes the flush panic. -/
theorem coverageReport_unreachable_sample :
    coverageReport FlushEnv.ok [("a.go".toList, some [1])]
        (initCover { coverCounters := [("a.go".toList, some [1])], coverBlocks := [] }) none =
      ReportOutcome.panic "index out of range".toList
        { file := some "mode: set\n".toList, written := ["mode: set\n".toList], stderr := [] } := by
  decide

end CompilerCover
